import Mathlib

/-!
Verification development for the otel-cli MCP trace store and OTLP server.

The definitions below are a shallow embedding of the Go sources:
* `mcpserver/mcpserver.go` — the data model (`TraceStore`, `TraceData`,
  `SpanData`, `CodeSpanContext`);
* `mcpserver/ui.go` — `AddSpan`, `cleanupOldTraces`, `GetFileTraces`,
  `ListFiles`, `SearchTraces`;
* the code analyzer (`AnalyzeSpan`, `extractFilePathsFromSpan`,
  `extractFilePathsFromEvent`, `processStackTrace`, `enrichWithFileContents`);
* the OTLP HTTP content negotiation (`handleTraces`, `handleLogs`).

Modelling conventions:
* Go `map[string]V` becomes an association list `List (String × V)` in
  insertion order; `map` assignment is `upsertA`, deletion is `deleteKeyA`.
  Go map iteration order is nondeterministic; the list order is the
  deterministic stand-in, and no theorem below depends on a particular
  iteration order beyond what the claims state.
* `time.Time` and `time.Duration` become `Int` nanoseconds; `t.Before u` is
  `t < u`, `now.Sub t` is `now - t`.  `time.Now()` becomes an explicit
  `now : Int` argument.
* Byte strings (`TraceId`, `SpanId`) become `List Nat` of byte values;
  `hex.EncodeToString` / `fmt.Sprintf "%x"` become `hexEncode`.
* File I/O in the analyzer is abstracted by `fs : String → Option (List String)`
  giving a file's lines when it exists (`none` = missing/unreadable file,
  matching the `fileExists` guard).  The per-language function-name regex
  battery of `inferFunctionName` is abstracted by a parameter
  `inferName : String → String → String`; no claim depends on it.
-/

/-! ## Association-list primitives standing in for Go maps -/

def lookupA {α : Type} : List (String × α) → String → Option α
  | [], _ => none
  | (k', v) :: rest, k => if k' = k then some v else lookupA rest k

def containsKeyA {α : Type} (l : List (String × α)) (k : String) : Bool :=
  (lookupA l k).isSome

/-- Go map assignment `m[k] = v`: replace the binding if present, else add it. -/
def upsertA {α : Type} : List (String × α) → String → α → List (String × α)
  | [], k, v => [(k, v)]
  | (k', v') :: rest, k, v =>
    if k' = k then (k, v) :: rest else (k', v') :: upsertA rest k v

/-- Go `delete(m, k)`. -/
def deleteKeyA {α : Type} (l : List (String × α)) (k : String) : List (String × α) :=
  l.filter (fun p => p.1 ≠ k)

/-- In-place update through a map lookup, a no-op when the key is absent
(models `if v, ok := m[k]; ok { mutate v }`). -/
def adjustA {α : Type} : List (String × α) → String → (α → α) → List (String × α)
  | [], _, _ => []
  | (k', v') :: rest, k, f =>
    if k' = k then (k', f v') :: rest else (k', v') :: adjustA rest k f

/-! ## Byte strings and hex encoding -/

/-- One lowercase hex digit, `n < 16`. -/
def hexDigit (n : Nat) : Char :=
  if n < 10 then Char.ofNat (48 + n) else Char.ofNat (87 + n)

/-- `hex.EncodeToString` / `fmt.Sprintf "%x"` on a byte slice: two lowercase
hex digits per byte. -/
def hexEncode (bs : List Nat) : String :=
  String.mk (bs.foldr (fun b acc => hexDigit (b % 256 / 16) :: hexDigit (b % 16) :: acc) [])

/-! ## Data model (`mcpserver/mcpserver.go`) -/

/-- The fields of `tracepb.Span` the store and analyzer read.  Attribute
values are taken through `GetValue().GetStringValue()`, so attributes are
modelled as string key/value pairs. -/
structure SpanProto where
  traceId : List Nat
  spanId : List Nat
  name : String
  attributes : List (String × String)
  deriving DecidableEq, Repr

/-- `tracepb.Span_Event`: name plus string attributes. -/
structure SpanEvent where
  name : String
  attributes : List (String × String)
  deriving DecidableEq, Repr

/-- `CodeSpanContext` links spans to source code. -/
structure CodeSpanContext where
  filePath : String
  lineStart : Int
  lineEnd : Int
  functionName : String
  spanID : String
  traceID : String
  operation : String
  codeSnapshot : String
  deriving DecidableEq, Repr

/-- `SpanData` enriches raw spans with context.  The `Events` slice is only
stored, never read by the store code, and is omitted. -/
structure SpanData where
  spanProto : SpanProto
  parentID : String
  children : List String
  fileContexts : List CodeSpanContext
  startTime : Int
  endTime : Int
  duration : Int
  deriving DecidableEq, Repr

/-- `TraceData`.  The Go `RootSpan *SpanData` pointer always aliases an entry
of `Spans` (or a just-overwritten one); it is modelled by the span-id key. -/
structure TraceData where
  traceID : String
  rootSpanID : Option String
  spans : List (String × SpanData)
  files : List String
  startTime : Int
  endTime : Int
  status : String
  errorMessage : String
  deriving DecidableEq, Repr

/-- `TraceStore` (the `lock` field has no shallow-embedding counterpart). -/
structure TraceStore where
  traces : List (String × TraceData)
  spansByFile : List (String × List CodeSpanContext)
  maxSpans : Int
  retention : Int
  deriving DecidableEq, Repr

/-! ## `cleanupOldTraces` (`mcpserver/ui.go`) -/

/-- Total number of stored spans, as counted by the first loop of
`cleanupOldTraces` (`totalSpans += len(trace.Spans)`). -/
def totalSpanCount (traces : List (String × TraceData)) : Int :=
  traces.foldl (fun acc p => acc + (p.2.spans.length : Int)) 0

/-- One pass of the inner `j` loop of the bubble sort in `cleanupOldTraces`:
the running `ages[i]` value is threaded through, swapping whenever it is
strictly newer (`.After`) than the element under scan.  Returns the final
`ages[i]` and the rearranged tail. -/
def innerPass (x : String × Int) : List (String × Int) → (String × Int) × List (String × Int)
  | [] => (x, [])
  | y :: rest =>
    if x.2 > y.2 then
      ((innerPass y rest).1, x :: (innerPass y rest).2)
    else
      ((innerPass x rest).1, y :: (innerPass x rest).2)

/-- The outer `i` loop of the sort; each inner pass keeps the tail's length,
so fuel equal to the list length makes the recursion total without changing
the result. -/
def sortAgesAux : Nat → List (String × Int) → List (String × Int)
  | 0, _ => []
  | _, [] => []
  | fuel + 1, x :: rest =>
    (innerPass x rest).1 :: sortAgesAux fuel (innerPass x rest).2

/-- The double loop `for i ... for j := i+1 ...` sorting `ages` oldest
(end time) first. -/
def sortAges (l : List (String × Int)) : List (String × Int) :=
  sortAgesAux l.length l

/-- The span count charged to a trace id during the size pass
(`len(store.traces[ta.id].Spans)`; the absent-key case is unreachable). -/
def cntOf (traces : List (String × TraceData)) (id : String) : Int :=
  ((lookupA traces id).map (fun t => (t.spans.length : Int))).getD 0

/-- The `for _, ta := range ages` loop of the size pass: walk the sorted ages,
stopping as soon as `totalSpans <= store.maxSpans`, otherwise removing the
trace's span count from the running total and recording its id. -/
def sizeLoop (maxSpans : Int) (traces : List (String × TraceData)) :
    List (String × Int) → Int → List String → Int × List String
  | [], tot, ids => (tot, ids)
  | ta :: rest, tot, ids =>
    if tot ≤ maxSpans then (tot, ids)
    else sizeLoop maxSpans traces rest (tot - cntOf traces ta.1) (ids ++ [ta.1])

/-- Body of the removal loop `for _, id := range oldTraceIDs`: rewrite the
file index for every file the trace touched, then delete the trace.  The Go
code would nil-panic if `id` were absent from the map; that case is
unreachable and modelled as a no-op. -/
def removeTrace (st : TraceStore) (id : String) : TraceStore :=
  match lookupA st.traces id with
  | none => st
  | some trace =>
    let sbf := trace.files.foldl
      (fun sbf file =>
        let newSpans := ((lookupA sbf file).getD []).filter (fun sc => sc.traceID ≠ id)
        if newSpans.length > 0 then upsertA sbf file newSpans
        else deleteKeyA sbf file)
      st.spansByFile
    { st with spansByFile := sbf, traces := deleteKeyA st.traces id }

/-- `cleanupOldTraces` removes old traces based on retention time and max
spans limit; `now` stands for `time.Now()`. -/
def cleanupOldTraces (store : TraceStore) (now : Int) : TraceStore :=
  if store.maxSpans ≤ 0 ∧ store.retention ≤ 0 then store
  else
    let totalSpans := totalSpanCount store.traces
    let oldTraceIDs :=
      if store.retention > 0 then
        (store.traces.filter (fun p => now - p.2.endTime > store.retention)).map Prod.fst
      else []
    let oldTraceIDs :=
      if store.maxSpans > 0 ∧ totalSpans > store.maxSpans ∧ oldTraceIDs = [] then
        (sizeLoop store.maxSpans store.traces
          (sortAges (store.traces.map (fun p => (p.1, p.2.endTime)))) totalSpans []).2
      else oldTraceIDs
    oldTraceIDs.foldl removeTrace store

/-! ## `AddSpan` (`mcpserver/ui.go`) -/

/-- Body of the `for _, fileCtx := range spanData.FileContexts` loop: extend
the file index, mark the file on the trace, and flip the trace status on
error/exception contexts. -/
def processFileCtx (acc : TraceData × List (String × List CodeSpanContext))
    (fileCtx : CodeSpanContext) : TraceData × List (String × List CodeSpanContext) :=
  let tr := acc.1
  let sbf := upsertA acc.2 fileCtx.filePath
    (((lookupA acc.2 fileCtx.filePath).getD []) ++ [fileCtx])
  let tr := { tr with
    files := if tr.files.contains fileCtx.filePath then tr.files
             else tr.files ++ [fileCtx.filePath] }
  let tr := if fileCtx.operation = "error" ∨ fileCtx.operation = "exception" then
      { tr with status := "error" }
    else tr
  (tr, sbf)

/-- The `for _, fileCtx := range spanData.FileContexts` loop. -/
def processFileContexts (ctxs : List CodeSpanContext)
    (acc : TraceData × List (String × List CodeSpanContext)) :
    TraceData × List (String × List CodeSpanContext) :=
  ctxs.foldl processFileCtx acc

/-- The get-or-create, time-update, span-upsert and root/child steps of
`AddSpan`, producing the trace record as it stands before the file-context
loop. -/
def addSpanTrace (store : TraceStore) (spanData : SpanData) : TraceData :=
  let traceID := hexEncode spanData.spanProto.traceId
  let spanID := hexEncode spanData.spanProto.spanId
  let trace :=
    match lookupA store.traces traceID with
    | some t => t
    | none =>
      { traceID := traceID, rootSpanID := none, spans := [], files := [],
        startTime := spanData.startTime, endTime := spanData.endTime,
        status := "", errorMessage := "" }
  let trace := { trace with
    startTime := if spanData.startTime < trace.startTime then spanData.startTime
                 else trace.startTime,
    endTime := if spanData.endTime > trace.endTime then spanData.endTime
               else trace.endTime }
  let trace := { trace with spans := upsertA trace.spans spanID spanData }
  if spanData.parentID.length = 0 ∨ spanData.parentID = "0000000000000000" then
    { trace with rootSpanID := some spanID }
  else
    { trace with spans := (adjustA trace.spans spanData.parentID
        (fun parent => { parent with children := parent.children ++ [spanID] })) }

/-- `AddSpan` adds a span to the trace store, organizing by trace ID and
updating related data, then runs the eviction sweep. -/
def AddSpan (store : TraceStore) (spanData : SpanData) (now : Int) : TraceStore :=
  let traceID := hexEncode spanData.spanProto.traceId
  let tsbf := processFileContexts spanData.fileContexts (addSpanTrace store spanData, store.spansByFile)
  cleanupOldTraces
    { store with
      traces := upsertA store.traces traceID tsbf.1,
      spansByFile := tsbf.2 }
    now

/-! ## Read-side store operations (`mcpserver/ui.go`) -/

/-- `GetTrace`. -/
def GetTrace (store : TraceStore) (traceID : String) : Option TraceData :=
  lookupA store.traces traceID

/-- `GetSpan`. -/
def GetSpan (store : TraceStore) (traceID spanID : String) : Option SpanData :=
  match lookupA store.traces traceID with
  | none => none
  | some trace => lookupA trace.spans spanID

/-- Body of the grouping loop of `GetFileTraces`: append the context to the
bucket keyed by its `TraceID` field. -/
def groupByTraceStep (result : List (String × List CodeSpanContext))
    (sc : CodeSpanContext) : List (String × List CodeSpanContext) :=
  upsertA result sc.traceID (((lookupA result sc.traceID).getD []) ++ [sc])

/-- `GetFileTraces` groups the file's code contexts by their `TraceID` field. -/
def GetFileTraces (store : TraceStore) (filePath : String) :
    List (String × List CodeSpanContext) :=
  ((lookupA store.spansByFile filePath).getD []).foldl groupByTraceStep []

/-- `ListFiles` returns all files that have associated spans. -/
def ListFiles (store : TraceStore) : List String :=
  store.spansByFile.map Prod.fst

/-! ## Go string primitives used by the analyzer -/

def isPrefixList : List Char → List Char → Bool
  | [], _ => true
  | _ :: _, [] => false
  | a :: as, b :: bs => a == b && isPrefixList as bs

/-- `strings.HasPrefix`. -/
def goHasPrefix (s pre : String) : Bool := isPrefixList pre.data s.data

def containsSubList : List Char → List Char → Bool
  | [], sub => sub.isEmpty
  | c :: t, sub => isPrefixList sub (c :: t) || containsSubList t sub

/-- `strings.Contains`. -/
def goContains (s sub : String) : Bool := containsSubList s.data sub.data

/-- ASCII lowercase of one character. -/
def asciiToLower (c : Char) : Char :=
  if 'A' ≤ c ∧ c ≤ 'Z' then Char.ofNat (c.toNat + 32) else c

/-- `strings.ToLower` (the inputs here are ASCII). -/
def goToLower (s : String) : String := String.mk (s.data.map asciiToLower)

/-- `filepath.IsAbs` on Unix. -/
def goIsAbs (path : String) : Bool := goHasPrefix path "/"

/-- Sections of a path between `/` separators (separators dropped, empty
sections kept), processed left to right. -/
def splitOnSlash : List Char → List (List Char)
  | [] => [[]]
  | c :: rest =>
    match splitOnSlash rest with
    | [] => [[]]
    | g :: gs => if c = '/' then [] :: g :: gs else (c :: g) :: gs

/-- The `..`-resolution step of `path.Clean`: pop a real section, keep
stacking `..` when nothing can be popped in an unrooted path, and drop it
at the root. -/
def dotdotPop (rooted : Bool) (acc : List (List Char)) : List (List Char) :=
  match acc with
  | [] => if rooted then [] else [['.', '.']]
  | top :: rest => if top = ['.', '.'] then ['.', '.'] :: acc else rest

/-- Section loop of `path.Clean` (Unix rules): empty and `.` sections are
dropped, `..` is resolved with `dotdotPop`, other sections are stacked;
the accumulator holds the kept sections in reverse. -/
def cleanElems (rooted : Bool) : List (List Char) → List (List Char) → List (List Char)
  | acc, [] => acc.reverse
  | acc, e :: rest =>
    if e = [] ∨ e = ['.'] then cleanElems rooted acc rest
    else if e = ['.', '.'] then cleanElems rooted (dotdotPop rooted acc) rest
    else cleanElems rooted (e :: acc) rest

/-- Rejoin cleaned sections with `/`. -/
def joinSlash : List (List Char) → List Char
  | [] => []
  | [e] => e
  | e :: f :: rest => e ++ '/' :: joinSlash (f :: rest)

/-- The `path.Clean` normalization (Unix separators, as `filepath.Clean`
on a Unix build): collapse repeated separators, drop `.` sections, resolve
`..`, and return `.` for an empty unrooted result. -/
def goClean (s : String) : String :=
  if s = "" then "."
  else
    let rooted := goIsAbs s
    let body := joinSlash (cleanElems rooted [] (splitOnSlash s.data))
    if rooted then String.mk ('/' :: body)
    else if body = [] then "." else String.mk body

/-- `filepath.Join` of two path elements: empty elements are dropped, the
rest joined with `/`, and the result passed through `Clean`; joining two
empty elements yields the empty string. -/
def goJoin (a b : String) : String :=
  if a = "" then if b = "" then "" else goClean b
  else if b = "" then goClean a
  else goClean (a ++ "/" ++ b)

/-- `strconv.Atoi` on the all-digit capture of the stack-trace pattern
(the error/overflow path yields Go's zero value and is out of scope). -/
def atoiDigits (s : String) : Nat :=
  s.data.foldl (fun acc c => acc * 10 + (c.toNat - 48)) 0

/-! ## Code context analyzer (`mcpserver` analyzer file) -/

/-- `isFileInProject`. -/
def isFileInProject (projectRoot path : String) : Bool :=
  if projectRoot = "" then true else goHasPrefix path projectRoot

/-- `inferOperationFromSpan`. -/
def inferOperationFromSpan (span : SpanProto) : String :=
  let spanName := goToLower span.name
  if goContains spanName "read" || goContains spanName "get" then "read"
  else if goContains spanName "write" || goContains spanName "put" ||
      goContains spanName "save" || goContains spanName "update" then "write"
  else if goContains spanName "exec" || goContains spanName "run" then "exec"
  else if goContains spanName "delete" || goContains spanName "remove" then "delete"
  else
    match span.attributes.find? (fun a =>
        (goContains (goToLower a.1) "operation" || goContains (goToLower a.1) "action")
          && a.2 != "") with
    | some a => goToLower a.2
    | none => "unknown"

/-- `inferOperationFromEvent`. -/
def inferOperationFromEvent (event : SpanEvent) : String :=
  let eventName := goToLower event.name
  if goContains eventName "read" || goContains eventName "get" then "read"
  else if goContains eventName "write" || goContains eventName "put" ||
      goContains eventName "save" || goContains eventName "update" then "write"
  else if goContains eventName "exec" || goContains eventName "run" then "exec"
  else if goContains eventName "delete" || goContains eventName "remove" then "delete"
  else if goContains eventName "error" || goContains eventName "exception" then "error"
  else
    match event.attributes.find? (fun a =>
        (goContains (goToLower a.1) "operation" || goContains (goToLower a.1) "action")
          && a.2 != "") with
    | some a => goToLower a.2
    | none => "unknown"

/-! The stack-trace pattern of `processStackTrace` matched with Go regexp
semantics (leftmost match, greedy quantifiers with backtracking).  The
character classes below spell out the pattern's classes: the path part
accepts word characters plus slash, dot and hyphen; the extension accepts
word characters; the line number accepts digits. -/

def isWordChar (c : Char) : Bool := c.isAlphanum || c == '_'

def isPathChar (c : Char) : Bool := isWordChar c || c == '/' || c == '.' || c == '-'

/-- Try the pattern with the leading path part bound to exactly `a`
characters: the next character must be the extension dot, then a nonempty
word-character run, a colon, and a nonempty digit run.  Returns the two
capture groups and the unconsumed tail. -/
def tryMatchSplit (s : List Char) (a : Nat) : Option (String × String × List Char) :=
  match s.drop a with
  | '.' :: rest2 =>
    let w := rest2.takeWhile isWordChar
    let rest3 := rest2.dropWhile isWordChar
    if w.length = 0 then none
    else
      match rest3 with
      | ':' :: rest4 =>
        let d := rest4.takeWhile Char.isDigit
        let rest5 := rest4.dropWhile Char.isDigit
        if d.length = 0 then none
        else some (String.mk (s.take a ++ '.' :: w), String.mk d, rest5)
      | _ => none
  | _ => none

/-- Greedy backtracking over the path-part length, longest first. -/
def tryMatchFrom (s : List Char) : Nat → Option (String × String × List Char)
  | 0 => none
  | a + 1 =>
    match tryMatchSplit s (a + 1) with
    | some r => some r
    | none => tryMatchFrom s a

/-- Attempt a match anchored at the head of `s`. -/
def tryMatchAt (s : List Char) : Option (String × String × List Char) :=
  tryMatchFrom s (s.takeWhile isPathChar).length

/-- `FindAllStringSubmatch(stackTrace, -1)`: scan left to right, emitting
each leftmost match and continuing after it.  Every step consumes at least
one character, so fuel equal to the string length makes the scan total
without changing its result. -/
def findFileLineAux : Nat → List Char → List (String × String)
  | 0, _ => []
  | _ + 1, [] => []
  | fuel + 1, c :: t =>
    match tryMatchAt (c :: t) with
    | some (g1, g2, rest) => (g1, g2) :: findFileLineAux fuel rest
    | none => findFileLineAux fuel t

def findFileLineMatches (s : List Char) : List (String × String) :=
  findFileLineAux s.length s

/-- The default/cap adjustments `enrichWithFileContents` applies to the line
window before reading. -/
def enrichLineBounds (context : CodeSpanContext) : CodeSpanContext :=
  let context := if context.lineStart ≤ 0 then { context with lineStart := 1 } else context
  let context :=
    if context.lineEnd ≤ context.lineStart then
      { context with lineEnd := context.lineStart + 20 }
    else context
  if context.lineEnd - context.lineStart > 50 then
    { context with lineEnd := context.lineStart + 50 }
  else context

/-- The scan loop of `enrichWithFileContents`: keep lines from five before
the window start through the window end, each prefixed by its 1-based
number, joined with newlines. -/
def buildSnapshot (fileLines : List String) (context : CodeSpanContext) : CodeSpanContext :=
  let codeLines := (fileLines.enum.map (fun p => ((p.1 : Int) + 1, p.2))).filterMap
    (fun p =>
      if p.1 ≥ context.lineStart - 5 ∧ p.1 ≤ context.lineEnd then
        some (toString p.1 ++ ": " ++ p.2)
      else none)
  { context with codeSnapshot := String.intercalate "\n" codeLines }

/-- `inferFunctionName`: early return on an empty snapshot; the per-language
regex battery is abstracted as `inferName`. -/
def applyInferName (inferName : String → String → String)
    (context : CodeSpanContext) : CodeSpanContext :=
  if context.codeSnapshot = "" then context
  else { context with functionName := inferName context.filePath context.codeSnapshot }

/-- `enrichWithFileContents`: `fs` models the file system (`none` covers both
the `fileExists` guard and an unreadable file), giving the file's lines. -/
def enrichWithFileContents (fs : String → Option (List String))
    (inferName : String → String → String) (context : CodeSpanContext) : CodeSpanContext :=
  if context.filePath = "" then context
  else
    match fs context.filePath with
    | none => context
    | some fileLines =>
      applyInferName inferName (buildSnapshot fileLines (enrichLineBounds context))

/-- Body of the attribute loop of `extractFilePathsFromSpan`. -/
def extractSpanAttrStep (projectRoot : String) (fs : String → Option (List String))
    (inferName : String → String → String) (span : SpanProto)
    (contexts : List CodeSpanContext) (attr : String × String) : List CodeSpanContext :=
  if goContains (goToLower attr.1) "file" || goContains (goToLower attr.1) "path" then
    if attr.2 ≠ "" then
      if goIsAbs attr.2 && isFileInProject projectRoot attr.2 then
        contexts ++ [enrichWithFileContents fs inferName
          { filePath := attr.2, lineStart := 0, lineEnd := 0, functionName := "",
            spanID := hexEncode span.spanId, traceID := hexEncode span.traceId,
            operation := inferOperationFromSpan span, codeSnapshot := "" }]
      else contexts
    else contexts
  else contexts

/-- `extractFilePathsFromSpan`. -/
def extractFilePathsFromSpan (projectRoot : String) (fs : String → Option (List String))
    (inferName : String → String → String) (span : SpanProto) : List CodeSpanContext :=
  span.attributes.foldl (extractSpanAttrStep projectRoot fs inferName span) []

/-- Body of the attribute loop of `extractFilePathsFromEvent` (note: no span
or trace id is stamped on the produced contexts; the zero value `""` is kept). -/
def extractEventAttrStep (projectRoot : String) (fs : String → Option (List String))
    (inferName : String → String → String) (event : SpanEvent)
    (contexts : List CodeSpanContext) (attr : String × String) : List CodeSpanContext :=
  if goContains (goToLower attr.1) "file" || goContains (goToLower attr.1) "path" then
    if attr.2 ≠ "" then
      if goIsAbs attr.2 && isFileInProject projectRoot attr.2 then
        contexts ++ [enrichWithFileContents fs inferName
          { filePath := attr.2, lineStart := 0, lineEnd := 0, functionName := "",
            spanID := "", traceID := "",
            operation := inferOperationFromEvent event, codeSnapshot := "" }]
      else contexts
    else contexts
  else contexts

/-- `extractFilePathsFromEvent`. -/
def extractFilePathsFromEvent (projectRoot : String) (fs : String → Option (List String))
    (inferName : String → String → String) (event : SpanEvent) : List CodeSpanContext :=
  event.attributes.foldl (extractEventAttrStep projectRoot fs inferName event) []

/-- Body of the match loop of `processStackTrace` (the `len(match) >= 3`
guard always holds for this two-group pattern).  Like
`extractFilePathsFromEvent`, the produced contexts carry no span or trace
id. -/
def stackMatchStep (projectRoot : String) (fs : String → Option (List String))
    (inferName : String → String → String)
    (contexts : List CodeSpanContext) (m : String × String) : List CodeSpanContext :=
  let filePath := m.1
  let lineNum : Int := (atoiDigits m.2 : Int)
  let filePath := if !goIsAbs filePath then goJoin projectRoot filePath else filePath
  if isFileInProject projectRoot filePath then
    contexts ++ [enrichWithFileContents fs inferName
      { filePath := filePath, lineStart := lineNum, lineEnd := lineNum + 10,
        functionName := "", spanID := "", traceID := "",
        operation := "exception", codeSnapshot := "" }]
  else contexts

/-- `processStackTrace`. -/
def processStackTrace (projectRoot : String) (fs : String → Option (List String))
    (inferName : String → String → String) (event : SpanEvent) : List CodeSpanContext :=
  let stackTrace :=
    match event.attributes.find? (fun a =>
        goToLower a.1 == "stack_trace" || goToLower a.1 == "stacktrace") with
    | some a => a.2
    | none => ""
  if stackTrace = "" then []
  else (findFileLineMatches stackTrace.data).foldl (stackMatchStep projectRoot fs inferName) []

/-- Body of the event loop of `AnalyzeSpan`. -/
def analyzeEventStep (projectRoot : String) (fs : String → Option (List String))
    (inferName : String → String → String)
    (contexts : List CodeSpanContext) (event : SpanEvent) : List CodeSpanContext :=
  let contexts :=
    if event.name = "exception" ∨ goContains (goToLower event.name) "error" then
      contexts ++ processStackTrace projectRoot fs inferName event
    else contexts
  contexts ++ extractFilePathsFromEvent projectRoot fs inferName event

/-- `AnalyzeSpan`. -/
def AnalyzeSpan (projectRoot : String) (fs : String → Option (List String))
    (inferName : String → String → String) (span : SpanProto) (events : List SpanEvent) :
    List CodeSpanContext :=
  events.foldl (analyzeEventStep projectRoot fs inferName)
    (extractFilePathsFromSpan projectRoot fs inferName span)

/-! ## OTLP HTTP content negotiation (`otlpserver` HTTP handlers)

Each handler is summarized by the explicitly written status code (`none`
means the handler proceeds to the 200-by-default processing path) and
whether control reaches the callback dispatch (`doCallback`/`doLogCallback`);
a request that never reaches the dispatch leaves server state untouched. -/

/-- `handleTraces` content switch. -/
def handleTraces (contentType : String) : Option Nat × Bool :=
  if contentType = "application/x-protobuf" then (none, true)
  else if contentType = "application/json" then (none, true)
  else (some 406, false)

/-- `handleLogs`: a missing log callback short-circuits to 200 before any
content inspection; otherwise the same content switch as `handleTraces`. -/
def handleLogs (logCallbackSet : Bool) (contentType : String) : Option Nat × Bool :=
  if !logCallbackSet then (some 200, false)
  else if contentType = "application/x-protobuf" then (none, true)
  else if contentType = "application/json" then (none, true)
  else (some 406, false)

/-! ## `SearchTraces` (`mcpserver/ui.go`) -/

/-- `SearchRequest`. -/
structure SearchRequest where
  query : String
  files : List String
  timeRange : String
  errorsOnly : Bool
  limit : Int
  deriving DecidableEq, Repr

/-- `TraceDigest` (`Duration` is `float64` of a whole number of
milliseconds; it is kept as the underlying integer).  `KeyEvents` is never
written and is omitted. -/
structure TraceDigest where
  traceID : String
  name : String
  durationMs : Int
  spanCount : Int
  errorCount : Int
  files : List String
  startTime : Int
  deriving DecidableEq, Repr

/-- `FileInsight`. -/
structure FileInsight where
  filePath : String
  hotspotLines : List Int
  errorLines : List Int
  related : List String
  deriving DecidableEq, Repr

/-- `SearchResponse` (`Summary` is filled in by the HTTP handler, not by
`SearchTraces`). -/
structure SearchResponse where
  traces : List TraceDigest
  fileInsights : List (String × FileInsight)
  summary : String
  deriving DecidableEq, Repr

/-- The digest `Name` is the root span's name when the trace has a root
(`trace.RootSpan != nil && trace.RootSpan.SpanProto != nil`). -/
def rootName (trace : TraceData) : String :=
  match trace.rootSpanID with
  | some rid =>
    match lookupA trace.spans rid with
    | some sp => sp.spanProto.name
    | none => ""
  | none => ""

/-- The digest constructed at the top of the match branch of
`SearchTraces` (before the files loop). -/
def initialDigest (id : String) (trace : TraceData) : TraceDigest :=
  { traceID := id, name := rootName trace,
    durationMs := (trace.endTime - trace.startTime) / 1000000,
    spanCount := trace.spans.length, errorCount := 0, files := [],
    startTime := trace.startTime }

/-- Body of the context loop of `scanContextsForFile`. -/
def scanCtxStep (trace : TraceData) (file : String)
    (acc : TraceDigest × FileInsight) (ctx : CodeSpanContext) : TraceDigest × FileInsight :=
  if ctx.filePath = file then
    let digest := acc.1
    let insight := acc.2
    let digest :=
      if ctx.operation = "error" ∨ ctx.operation = "exception" then
        { digest with errorCount := digest.errorCount + 1 }
      else digest
    let insight :=
      if ctx.operation = "error" ∨ ctx.operation = "exception" then
        { insight with errorLines := insight.errorLines ++ [ctx.lineStart] }
      else insight
    let insight := { insight with hotspotLines := insight.hotspotLines ++ [ctx.lineStart] }
    let insight := { insight with related := insight.related ++ trace.files.filter (fun f => f ≠ file) }
    (digest, insight)
  else acc

/-- Body of the span loop of `scanContextsForFile`. -/
def scanSpanStep (trace : TraceData) (file : String)
    (acc : TraceDigest × FileInsight) (sp : String × SpanData) : TraceDigest × FileInsight :=
  sp.2.fileContexts.foldl (scanCtxStep trace file) acc

/-- The double loop `for _, span := range trace.Spans / for _, ctx :=
range span.FileContexts` collecting error counts, hotspot lines, error lines
and related files for one file of a matching trace. -/
def scanContextsForFile (trace : TraceData) (file : String)
    (acc : TraceDigest × FileInsight) : TraceDigest × FileInsight :=
  trace.spans.foldl (scanSpanStep trace file) acc

/-- Body of the file loop of `buildDigest`. -/
def buildDigestStep (trace : TraceData)
    (acc : TraceDigest × List (String × FileInsight)) (file : String) :
    TraceDigest × List (String × FileInsight) :=
  let digest := { acc.1 with files := acc.1.files ++ [file] }
  let insight := (lookupA acc.2 file).getD
    { filePath := file, hotspotLines := [], errorLines := [], related := [] }
  let di := scanContextsForFile trace file (digest, insight)
  (di.1, upsertA acc.2 file di.2)

/-- The `for file := range trace.Files` loop of a matching trace: collect the
digest's file list and build/extend the shared per-file insights. -/
def buildDigest (id : String) (trace : TraceData)
    (fileInsights : List (String × FileInsight)) :
    TraceDigest × List (String × FileInsight) :=
  trace.files.foldl (buildDigestStep trace) (initialDigest id trace, fileInsights)

/-- The filter guards of the collection loop, in source order.
`minTime` is zero when no valid time range was given; `fileSet` is `none`
when no file filter was given. -/
def searchSkip (req : SearchRequest) (fileSet : Option (List String)) (minTime : Int)
    (trace : TraceData) : Bool :=
  if ¬ minTime = 0 ∧ trace.endTime < minTime then true
  else if req.errorsOnly ∧ trace.status ≠ "error" then true
  else
    match fileSet with
    | some fset => !(trace.files.any (fun file => fset.contains file))
    | none => false

/-- The `for id, trace := range store.traces` collection loop, with the
post-append result-cap break. -/
def searchLoop (req : SearchRequest) (fileSet : Option (List String)) (minTime : Int) :
    List (String × TraceData) → List TraceDigest → List (String × FileInsight) →
    List TraceDigest × List (String × FileInsight)
  | [], traces, fileInsights => (traces, fileInsights)
  | (id, trace) :: rest, traces, fileInsights =>
    if searchSkip req fileSet minTime trace then
      searchLoop req fileSet minTime rest traces fileInsights
    else
      let dfi := buildDigest id trace fileInsights
      let traces := traces ++ [dfi.1]
      if req.limit > 0 ∧ (traces.length : Int) ≥ req.limit then (traces, dfi.2)
      else searchLoop req fileSet minTime rest traces dfi.2

/-- The `minTime` computation: `time.ParseDuration` is not part of this
repository and is abstracted by `parseDur` (`none` = parse error); an absent
or unparseable range leaves `minTime` at the zero value. -/
def searchMinTime (parseDur : String → Option Int) (req : SearchRequest) (now : Int) : Int :=
  if req.timeRange ≠ "" then
    match parseDur req.timeRange with
    | some d => now - d
    | none => 0
  else 0

/-- `SearchTraces`. -/
def SearchTraces (store : TraceStore) (parseDur : String → Option Int)
    (req : SearchRequest) (now : Int) : SearchResponse :=
  let fileSet : Option (List String) :=
    if req.files.length > 0 then some req.files else none
  let minTime := searchMinTime parseDur req now
  let tfi := searchLoop req fileSet minTime store.traces [] []
  { traces := tfi.1, fileInsights := tfi.2, summary := "" }

/-! ## Concrete fixtures used by counterexamples and witnesses -/

/-- The sequencing of `AddSpan` calls `(span, now)` used by the frame claims:
each call is one ingestion write with its `time.Now()` value. -/
def addMany (store : TraceStore) (adds : List (SpanData × Int)) : TraceStore :=
  adds.foldl (fun st a => AddSpan st a.1 a.2) store

/-- A store as freshly constructed by `NewMCPServer` with the given limits. -/
def newStore (maxSpans retention : Int) : TraceStore :=
  { traces := [], spansByFile := [], maxSpans := maxSpans, retention := retention }

/-- Span-record builder for concrete scenarios. -/
def mkSpan (tid sid : List Nat) (pid : String) (st en : Int)
    (ctxs : List CodeSpanContext) : SpanData :=
  { spanProto := { traceId := tid, spanId := sid, name := "op", attributes := [] },
    parentID := pid, children := [], fileContexts := ctxs,
    startTime := st, endTime := en, duration := en - st }

/-- An event-derived code context (no trace/span id stamped), as produced by
`extractFilePathsFromEvent`. -/
def evtCtx : CodeSpanContext :=
  { filePath := "a.go", lineStart := 5, lineEnd := 15, functionName := "",
    spanID := "", traceID := "", operation := "read", codeSnapshot := "" }

/-- A store for the C3 scenario: eleven one-span traces with distinct end
times `0..10` and `maxSpans = 10`. -/
def c3store : TraceStore :=
  { traces := (List.range 11).map (fun i =>
      (hexEncode [i], TraceData.mk (hexEncode [i]) none
        [(hexEncode [i], mkSpan [i] [i] "" 0 (i : Int) [])] [] 0 (i : Int) "" "")),
    spansByFile := [], maxSpans := 10, retention := 0 }

/-- A store with one expired trace for the C3 retention-gating scenario. -/
def c3retStore : TraceStore :=
  { traces := [("00", TraceData.mk "00" none [("00", mkSpan [0] [0] "" 0 0 [])] [] 0 0 "" "")],
    spansByFile := [], maxSpans := 0, retention := 1 }

/-- The C9 scenario: a span with no attributes and an `exception` event
whose `stack_trace` attribute is `handler.go:42: nil pointer`. -/
def c9span : SpanProto := { traceId := [], spanId := [], name := "", attributes := [] }

def c9event : SpanEvent :=
  { name := "exception", attributes := [("stack_trace", "handler.go:42: nil pointer")] }

/-- The context `processStackTrace` builds for the single `handler.go:42`
match before file enrichment. -/
def c9ctx (projectRoot : String) : CodeSpanContext :=
  { filePath := goJoin projectRoot "handler.go", lineStart := 42, lineEnd := 52,
    functionName := "", spanID := "", traceID := "", operation := "exception",
    codeSnapshot := "" }

/-! ## Association-list lemmas -/

theorem lookupA_upsertA_self {α : Type} (l : List (String × α)) (k : String) (v : α) :
    lookupA (upsertA l k v) k = some v := by
  induction l with
  | nil => simp [upsertA, lookupA]
  | cons p rest ih =>
    by_cases h : p.1 = k <;> simp [upsertA, lookupA, h, ih]

theorem lookupA_upsertA_ne {α : Type} (l : List (String × α)) (k k' : String) (v : α)
    (h : k ≠ k') : lookupA (upsertA l k v) k' = lookupA l k' := by
  induction l with
  | nil => simp [upsertA, lookupA, h]
  | cons p rest ih =>
    by_cases hp : p.1 = k
    · simp [upsertA, hp, lookupA, h]
    · simp [upsertA, hp, lookupA, ih]

theorem lookupA_adjustA_self {α : Type} (l : List (String × α)) (k : String) (f : α → α) :
    lookupA (adjustA l k f) k = (lookupA l k).map f := by
  induction l with
  | nil => simp [adjustA, lookupA]
  | cons p rest ih =>
    by_cases h : p.1 = k <;> simp [adjustA, lookupA, h, ih]

theorem lookupA_adjustA_ne {α : Type} (l : List (String × α)) (k k' : String) (f : α → α)
    (h : k ≠ k') : lookupA (adjustA l k f) k' = lookupA l k' := by
  induction l with
  | nil => simp [adjustA, lookupA]
  | cons p rest ih =>
    by_cases hp : p.1 = k
    · simp [adjustA, hp, lookupA, h, ih]
    · simp [adjustA, hp, lookupA, ih]

theorem upsertA_length_of_contains {α : Type} (l : List (String × α)) (k : String) (v : α)
    (h : containsKeyA l k = true) : (upsertA l k v).length = l.length := by
  induction l with
  | nil => simp [containsKeyA, lookupA] at h
  | cons p rest ih =>
    by_cases hp : p.1 = k
    · simp [upsertA, hp]
    · simp only [containsKeyA, lookupA, if_neg hp] at h
      simp [upsertA, hp, ih h]

theorem adjustA_length {α : Type} (l : List (String × α)) (k : String) (f : α → α) :
    (adjustA l k f).length = l.length := by
  induction l with
  | nil => simp [adjustA]
  | cons p rest ih =>
    by_cases h : p.1 = k <;> simp [adjustA, h, ih]

theorem containsKeyA_upsertA_of {α : Type} (l : List (String × α)) (k k' : String) (v : α)
    (h : containsKeyA l k' = true) : containsKeyA (upsertA l k v) k' = true := by
  by_cases hk : k = k'
  · simp [containsKeyA, hk, lookupA_upsertA_self]
  · simpa [containsKeyA, lookupA_upsertA_ne _ _ _ _ hk] using h

theorem lookupA_eq_none_iff {α : Type} (l : List (String × α)) (k : String) :
    lookupA l k = none ↔ ∀ p ∈ l, p.1 ≠ k := by
  induction l with
  | nil => simp [lookupA]
  | cons p rest ih =>
    by_cases h : p.1 = k <;> simp [lookupA, h, ih]

theorem lookupA_mem {α : Type} (l : List (String × α)) (k : String) (v : α)
    (h : lookupA l k = some v) : (k, v) ∈ l := by
  induction l with
  | nil => simp [lookupA] at h
  | cons p rest ih =>
    obtain ⟨a, b⟩ := p
    by_cases hp : a = k
    · subst hp
      simp only [lookupA, if_true, eq_self_iff_true, Option.some.injEq] at h
      subst h
      exact List.mem_cons_self _ _
    · simp only [lookupA, if_neg hp] at h
      exact List.mem_cons_of_mem _ (ih h)

theorem lookupA_of_mem_nodup {α : Type} (l : List (String × α)) (p : String × α)
    (hmem : p ∈ l) (hnd : (l.map Prod.fst).Nodup) : lookupA l p.1 = some p.2 := by
  induction l with
  | nil => simp at hmem
  | cons q rest ih =>
    simp only [List.map_cons, List.nodup_cons] at hnd
    rcases List.mem_cons.1 hmem with h | h
    · subst h
      simp [lookupA]
    · have hne : q.1 ≠ p.1 := by
        intro he
        exact hnd.1 (he ▸ List.mem_map_of_mem Prod.fst h)
      simp [lookupA, hne, ih h hnd.2]

/-! ## Frame lemmas: configuration fields are never written -/

theorem removeTrace_maxSpans (st : TraceStore) (id : String) :
    (removeTrace st id).maxSpans = st.maxSpans := by
  unfold removeTrace
  cases lookupA st.traces id <;> simp

theorem removeTrace_retention (st : TraceStore) (id : String) :
    (removeTrace st id).retention = st.retention := by
  unfold removeTrace
  cases lookupA st.traces id <;> simp

theorem foldl_removeTrace_maxSpans (ids : List String) (st : TraceStore) :
    (ids.foldl removeTrace st).maxSpans = st.maxSpans := by
  induction ids generalizing st with
  | nil => rfl
  | cons id rest ih => simp [List.foldl_cons, ih, removeTrace_maxSpans]

theorem foldl_removeTrace_retention (ids : List String) (st : TraceStore) :
    (ids.foldl removeTrace st).retention = st.retention := by
  induction ids generalizing st with
  | nil => rfl
  | cons id rest ih => simp [List.foldl_cons, ih, removeTrace_retention]

theorem cleanupOldTraces_maxSpans (st : TraceStore) (now : Int) :
    (cleanupOldTraces st now).maxSpans = st.maxSpans := by
  unfold cleanupOldTraces
  split
  · rfl
  · simp [foldl_removeTrace_maxSpans]

theorem cleanupOldTraces_retention (st : TraceStore) (now : Int) :
    (cleanupOldTraces st now).retention = st.retention := by
  unfold cleanupOldTraces
  split
  · rfl
  · simp [foldl_removeTrace_retention]

/-- With neither limit configured the sweep returns at its first guard. -/
theorem cleanupOldTraces_noop (st : TraceStore) (now : Int)
    (h1 : st.maxSpans ≤ 0) (h2 : st.retention ≤ 0) :
    cleanupOldTraces st now = st := by
  unfold cleanupOldTraces
  rw [if_pos ⟨h1, h2⟩]

/-! ## `AddSpan` structure lemmas -/

theorem processFileCtx_fst_spans (acc : TraceData × List (String × List CodeSpanContext))
    (c : CodeSpanContext) : (processFileCtx acc c).1.spans = acc.1.spans := by
  simp only [processFileCtx]
  split_ifs <;> rfl

theorem processFileContexts_fst_spans (ctxs : List CodeSpanContext)
    (acc : TraceData × List (String × List CodeSpanContext)) :
    (processFileContexts ctxs acc).1.spans = acc.1.spans := by
  induction ctxs generalizing acc with
  | nil => rfl
  | cons c rest ih =>
    rw [processFileContexts, List.foldl_cons]
    exact (ih (processFileCtx acc c)).trans (processFileCtx_fst_spans acc c)

theorem AddSpan_maxSpans (store : TraceStore) (s : SpanData) (now : Int) :
    (AddSpan store s now).maxSpans = store.maxSpans := by
  unfold AddSpan
  simp [cleanupOldTraces_maxSpans]

theorem AddSpan_retention (store : TraceStore) (s : SpanData) (now : Int) :
    (AddSpan store s now).retention = store.retention := by
  unfold AddSpan
  simp [cleanupOldTraces_retention]

/-- With no limits configured, `AddSpan` is exactly the upsert of the updated
trace record (the sweep is the identity). -/
theorem AddSpan_noLimits_traces (store : TraceStore) (s : SpanData) (now : Int)
    (h1 : store.maxSpans ≤ 0) (h2 : store.retention ≤ 0) :
    (AddSpan store s now).traces =
      upsertA store.traces (hexEncode s.spanProto.traceId)
        (processFileContexts s.fileContexts (addSpanTrace store s, store.spansByFile)).1 := by
  have h : AddSpan store s now = cleanupOldTraces
      { store with
        traces := upsertA store.traces (hexEncode s.spanProto.traceId)
          (processFileContexts s.fileContexts (addSpanTrace store s, store.spansByFile)).1,
        spansByFile :=
          (processFileContexts s.fileContexts (addSpanTrace store s, store.spansByFile)).2 }
      now := rfl
  rw [h, cleanupOldTraces_noop]
  · exact h1
  · exact h2

/-- The span record just written is retrievable (its own upsert is the last
write to its key; the parent-child adjustment touches a different key). -/
theorem addSpanTrace_lookup_self (store : TraceStore) (s : SpanData)
    (hp : s.parentID ≠ hexEncode s.spanProto.spanId) :
    lookupA (addSpanTrace store s).spans (hexEncode s.spanProto.spanId) = some s := by
  unfold addSpanTrace
  by_cases hroot : s.parentID.length = 0 ∨ s.parentID = "0000000000000000"
  · simp only [if_pos hroot]
    exact lookupA_upsertA_self _ _ _
  · simp only [if_neg hroot]
    rw [lookupA_adjustA_ne _ _ _ _ hp]
    exact lookupA_upsertA_self _ _ _

/-- Re-adding an already-present span id keeps the span count. -/
theorem addSpanTrace_length (store : TraceStore) (s : SpanData) (t : TraceData)
    (ht : lookupA store.traces (hexEncode s.spanProto.traceId) = some t)
    (hs : containsKeyA t.spans (hexEncode s.spanProto.spanId) = true) :
    (addSpanTrace store s).spans.length = t.spans.length := by
  unfold addSpanTrace
  by_cases hroot : s.parentID.length = 0 ∨ s.parentID = "0000000000000000"
  · simp only [if_pos hroot, ht]
    exact upsertA_length_of_contains _ _ _ hs
  · simp only [if_neg hroot, ht]
    rw [adjustA_length]
    exact upsertA_length_of_contains _ _ _ hs

/-- C4: for a stored trace and span, calling `AddSpan` again with the same
trace id and span id overwrites the previously stored record for that span
id (upsert, not append) and leaves the trace's span count unchanged (no
eviction limit configured, so the sweep removes nothing). -/
theorem c4_readd_is_upsert (store : TraceStore) (s : SpanData) (now : Int) (t : TraceData)
    (hmax : store.maxSpans ≤ 0) (hret : store.retention ≤ 0)
    (ht : lookupA store.traces (hexEncode s.spanProto.traceId) = some t)
    (hs : containsKeyA t.spans (hexEncode s.spanProto.spanId) = true)
    (hp : s.parentID ≠ hexEncode s.spanProto.spanId) :
    ∃ t', lookupA (AddSpan store s now).traces (hexEncode s.spanProto.traceId) = some t' ∧
      lookupA t'.spans (hexEncode s.spanProto.spanId) = some s ∧
      t'.spans.length = t.spans.length := by
  refine ⟨(processFileContexts s.fileContexts (addSpanTrace store s, store.spansByFile)).1,
    ?_, ?_, ?_⟩
  · rw [AddSpan_noLimits_traces store s now hmax hret]
    exact lookupA_upsertA_self _ _ _
  · rw [processFileContexts_fst_spans]
    exact addSpanTrace_lookup_self store s hp
  · rw [processFileContexts_fst_spans]
    exact addSpanTrace_length store s t ht hs

/-- Witness for C4: re-adding span `02` of trace `01` (with changed fields)
overwrites the record and keeps the count at 2. -/
theorem c4_witness :
    ∃ t', lookupA (AddSpan
        (addMany (newStore 0 0)
          [(mkSpan [1] [2] "" 0 10 [], 0), (mkSpan [1] [3] "" 1 9 [], 1)])
        (mkSpan [1] [2] "" 2 20 []) 5).traces "01" = some t' ∧
      lookupA t'.spans "02" = some (mkSpan [1] [2] "" 2 20 []) ∧
      t'.spans.length = 2 := by
  obtain ⟨t', h1, h2, h3⟩ := c4_readd_is_upsert
    (addMany (newStore 0 0) [(mkSpan [1] [2] "" 0 10 [], 0), (mkSpan [1] [3] "" 1 9 [], 1)])
    (mkSpan [1] [2] "" 2 20 []) 5
    (TraceData.mk "01" (some "03")
      [("02", mkSpan [1] [2] "" 0 10 []), ("03", mkSpan [1] [3] "" 1 9 [])]
      [] 0 10 "" "")
    (by decide) (by decide) (by decide) (by decide) (by decide)
  exact ⟨t', h1, h2, h3⟩

/-! ## C5: no limits configured means no eviction, ever -/

theorem addMany_contains (adds : List (SpanData × Int)) :
    ∀ (store : TraceStore), store.maxSpans ≤ 0 → store.retention ≤ 0 →
      ∀ tid, containsKeyA store.traces tid = true →
        containsKeyA (addMany store adds).traces tid = true := by
  induction adds with
  | nil => exact fun store _ _ tid h => h
  | cons a rest ih =>
    intro store h1 h2 tid h
    have hstep : containsKeyA (AddSpan store a.1 a.2).traces tid = true := by
      rw [AddSpan_noLimits_traces store a.1 a.2 h1 h2]
      exact containsKeyA_upsertA_of _ _ _ _ h
    have hmax : (AddSpan store a.1 a.2).maxSpans ≤ 0 := by
      rw [AddSpan_maxSpans]; exact h1
    have hret : (AddSpan store a.1 a.2).retention ≤ 0 := by
      rw [AddSpan_retention]; exact h2
    exact ih (AddSpan store a.1 a.2) hmax hret tid hstep

/-- C5: with `maxSpans = 0` and `retention = 0` the eviction sweep is a
no-op (it leaves the whole store, trace map and file index included,
unchanged), and across an arbitrary sequence of `AddSpan` calls no stored
trace is ever removed. -/
theorem c5_no_limits_no_eviction (store : TraceStore) (adds : List (SpanData × Int)) (now : Int)
    (h1 : store.maxSpans = 0) (h2 : store.retention = 0) :
    cleanupOldTraces store now = store ∧
    ∀ tid, containsKeyA store.traces tid = true →
      containsKeyA (addMany store adds).traces tid = true :=
  ⟨cleanupOldTraces_noop store now (le_of_eq h1) (le_of_eq h2),
   fun tid h => addMany_contains adds store (le_of_eq h1) (le_of_eq h2) tid h⟩

/-- Witness for C5: a store holding trace `01` keeps it across two further
additions, and the sweep is the identity. -/
theorem c5_witness :
    cleanupOldTraces (AddSpan (newStore 0 0) (mkSpan [1] [2] "" 0 10 []) 0) 99 =
      AddSpan (newStore 0 0) (mkSpan [1] [2] "" 0 10 []) 0 ∧
    containsKeyA (addMany (AddSpan (newStore 0 0) (mkSpan [1] [2] "" 0 10 []) 0)
      [(mkSpan [3] [4] "" 0 5 [], 50), (mkSpan [5] [6] "" 1 6 [], 60)]).traces "01" = true := by
  refine ⟨(c5_no_limits_no_eviction (AddSpan (newStore 0 0) (mkSpan [1] [2] "" 0 10 []) 0)
      [(mkSpan [3] [4] "" 0 5 [], 50), (mkSpan [5] [6] "" 1 6 [], 60)] 99
      (by decide) (by decide)).1, ?_⟩
  exact (c5_no_limits_no_eviction (AddSpan (newStore 0 0) (mkSpan [1] [2] "" 0 10 []) 0)
      [(mkSpan [3] [4] "" 0 5 [], 50), (mkSpan [5] [6] "" 1 6 [], 60)] 99
      (by decide) (by decide)).2 "01" (by decide)

/-! ## C1: parent/child linkage -/

/-- C1 counterexample: same trace, `s2.parent = s1.id`, but delivered child
first.  `AddSpan` only links a span to an already-stored parent and never
backfills when the parent arrives later, so the parent's `Children` list
ends up containing the child id zero times, not exactly once. -/
theorem c1_counterexample :
    ((GetSpan (AddSpan (AddSpan (newStore 0 0) (mkSpan [1] [3] "02" 1 9 []) 0)
        (mkSpan [1] [2] "" 0 10 []) 0) "01" "02").map
      (fun r => r.children.count "03")) = some 0 := by
  decide

/-- A freshly added span's record is found under its id with no occurrence
of a different id `sid2` in its `Children` (the only id that can self-append
is its own). -/
theorem addSpanTrace_children_count (store : TraceStore) (s : SpanData) (sid2 : String)
    (hchild : s.children = [])
    (hne : hexEncode s.spanProto.spanId ≠ sid2) :
    ∃ r, lookupA (addSpanTrace store s).spans (hexEncode s.spanProto.spanId) = some r ∧
      r.children.count sid2 = 0 := by
  unfold addSpanTrace
  by_cases hroot : s.parentID.length = 0 ∨ s.parentID = "0000000000000000"
  · refine ⟨s, ?_, ?_⟩
    · simp only [if_pos hroot]
      exact lookupA_upsertA_self _ _ _
    · rw [hchild]; rfl
  · by_cases hself : s.parentID = hexEncode s.spanProto.spanId
    · refine ⟨{ s with children := s.children ++ [hexEncode s.spanProto.spanId] }, ?_, ?_⟩
      · simp only [if_neg hroot]
        rw [hself, lookupA_adjustA_self, lookupA_upsertA_self]
        simp [hself]
      · rw [hchild]
        simp [List.count_cons, hne]
    · refine ⟨s, ?_, ?_⟩
      · simp only [if_neg hroot]
        rw [lookupA_adjustA_ne _ _ _ _ hself]
        exact lookupA_upsertA_self _ _ _
      · rw [hchild]; rfl

/-- Adding a child span appends exactly its id to the stored parent's
`Children`. -/
theorem addSpanTrace_child_append (store : TraceStore) (s2 : SpanData) (t : TraceData)
    (r : SpanData)
    (ht : lookupA store.traces (hexEncode s2.spanProto.traceId) = some t)
    (hne0 : ¬(s2.parentID.length = 0 ∨ s2.parentID = "0000000000000000"))
    (hsid : s2.parentID ≠ hexEncode s2.spanProto.spanId)
    (hr : lookupA t.spans s2.parentID = some r) :
    lookupA (addSpanTrace store s2).spans s2.parentID =
      some { r with children := r.children ++ [hexEncode s2.spanProto.spanId] } := by
  unfold addSpanTrace
  simp only [if_neg hne0, ht]
  rw [lookupA_adjustA_self, lookupA_upsertA_ne _ _ _ _ (Ne.symm hsid), hr]
  rfl

/-- C1 (amended): when the parent span `s1` is delivered before the child
`s2` (same trace, distinct span ids, `s2.parent = s1.id` nonzero) and no
eviction limit is configured, the parent's `Children` list contains the
child's span id exactly once after both adds; in the reverse delivery order
the parent's list does not gain the child id (see the counterexample). -/
theorem c1_parent_first_child_once (store : TraceStore) (s1 s2 : SpanData) (now1 now2 : Int)
    (hmax : store.maxSpans ≤ 0) (hret : store.retention ≤ 0)
    (hchild : s1.children = [])
    (htid : s2.spanProto.traceId = s1.spanProto.traceId)
    (hsid : hexEncode s1.spanProto.spanId ≠ hexEncode s2.spanProto.spanId)
    (hparent : s2.parentID = hexEncode s1.spanProto.spanId)
    (hlen : ¬ s2.parentID.length = 0)
    (hnz : s2.parentID ≠ "0000000000000000") :
    ∃ t r, lookupA (AddSpan (AddSpan store s1 now1) s2 now2).traces
        (hexEncode s1.spanProto.traceId) = some t ∧
      lookupA t.spans (hexEncode s1.spanProto.spanId) = some r ∧
      r.children.count (hexEncode s2.spanProto.spanId) = 1 := by
  obtain ⟨r1, hr1, hc1⟩ := addSpanTrace_children_count store s1
    (hexEncode s2.spanProto.spanId) hchild hsid
  have htid2 : hexEncode s2.spanProto.traceId = hexEncode s1.spanProto.traceId := by
    rw [htid]
  have h1tr : (AddSpan store s1 now1).traces =
      upsertA store.traces (hexEncode s1.spanProto.traceId)
        (processFileContexts s1.fileContexts (addSpanTrace store s1, store.spansByFile)).1 :=
    AddSpan_noLimits_traces store s1 now1 hmax hret
  have hlook : lookupA (AddSpan store s1 now1).traces (hexEncode s2.spanProto.traceId) =
      some (processFileContexts s1.fileContexts (addSpanTrace store s1, store.spansByFile)).1 := by
    rw [htid2, h1tr]
    exact lookupA_upsertA_self _ _ _
  have hr1' : lookupA
      (processFileContexts s1.fileContexts (addSpanTrace store s1, store.spansByFile)).1.spans
      s2.parentID = some r1 := by
    rw [processFileContexts_fst_spans, hparent]
    exact hr1
  have hne0 : ¬(s2.parentID.length = 0 ∨ s2.parentID = "0000000000000000") := by
    push_neg
    exact ⟨hlen, hnz⟩
  have hsid' : s2.parentID ≠ hexEncode s2.spanProto.spanId := by
    rw [hparent]
    exact hsid
  have happ := addSpanTrace_child_append (AddSpan store s1 now1) s2 _ r1 hlook hne0 hsid' hr1'
  have h2tr : (AddSpan (AddSpan store s1 now1) s2 now2).traces =
      upsertA (AddSpan store s1 now1).traces (hexEncode s2.spanProto.traceId)
        (processFileContexts s2.fileContexts
          (addSpanTrace (AddSpan store s1 now1) s2, (AddSpan store s1 now1).spansByFile)).1 :=
    AddSpan_noLimits_traces (AddSpan store s1 now1) s2 now2
      (by rw [AddSpan_maxSpans]; exact hmax)
      (by rw [AddSpan_retention]; exact hret)
  refine ⟨(processFileContexts s2.fileContexts
      (addSpanTrace (AddSpan store s1 now1) s2, (AddSpan store s1 now1).spansByFile)).1,
    { r1 with children := r1.children ++ [hexEncode s2.spanProto.spanId] }, ?_, ?_, ?_⟩
  · rw [h2tr, ← htid2]
    exact lookupA_upsertA_self _ _ _
  · rw [processFileContexts_fst_spans, ← hparent]
    exact happ
  · simp [List.count_append, List.count_cons, hc1]

/-- Witness for C1 (amended): parent `02` then child `03` in trace `01`
leaves `02` with child list containing `03` exactly once. -/
theorem c1_witness :
    ∃ t r, lookupA (AddSpan (AddSpan (newStore 0 0) (mkSpan [1] [2] "" 0 10 []) 0)
        (mkSpan [1] [3] "02" 1 9 []) 0).traces "01" = some t ∧
      lookupA t.spans "02" = some r ∧
      r.children.count "03" = 1 := by
  obtain ⟨t, r, h1, h2, h3⟩ := c1_parent_first_child_once (newStore 0 0)
    (mkSpan [1] [2] "" 0 10 []) (mkSpan [1] [3] "02" 1 9 []) 0 0
    (by decide) (by decide) (by decide) (by decide) (by decide) (by decide)
    (by decide) (by decide)
  exact ⟨t, r, h1, h2, h3⟩

/-! ## C2: eviction leaves event-derived file-index entries behind -/

/-- C2 failing evaluation: trace `01` holds one event-derived context for
`a.go` (its `TraceID` field is the zero value `""`, as
`extractFilePathsFromEvent` and `processStackTrace` never stamp it).  With
`retention = 1` ns, the `AddSpan` at `now = 100` evicts trace `01`, yet the
removal filter `sc.TraceID != id` keeps the `""`-tagged entry: the bucket
for `a.go` survives with the stale context and `ListFiles` still reports
`a.go`, contradicting the spec's derived-state invariant. -/
theorem c2_stale_file_index_after_eviction :
    lookupA (AddSpan (AddSpan (newStore 0 1) (mkSpan [1] [2] "" 0 0 [evtCtx]) 0)
        (mkSpan [9] [8] "" 100 100 []) 100).traces "01" = none ∧
    lookupA (AddSpan (AddSpan (newStore 0 1) (mkSpan [1] [2] "" 0 0 [evtCtx]) 0)
        (mkSpan [9] [8] "" 100 100 []) 100).spansByFile "a.go" = some [evtCtx] ∧
    "a.go" ∈ ListFiles (AddSpan (AddSpan (newStore 0 1) (mkSpan [1] [2] "" 0 0 [evtCtx]) 0)
        (mkSpan [9] [8] "" 100 100 []) 100) := by
  decide

/-! ## C8: HTTP content negotiation -/

/-- C8 counterexample: on the logs path with no registered log callback, a
request with an unrecognized content type is answered 200 (the nil-callback
short circuit runs before content inspection), not 406. -/
theorem c8_counterexample :
    handleLogs false "text/plain" = (some 200, false) ∧
    handleLogs false "text/plain" ≠ (some 406, false) := by
  decide

/-- C8 (amended): a request whose content type is neither the protobuf
binary encoding nor JSON is answered 406 with no callback dispatch on the
traces path, and on the logs path when a log callback is registered; with no
log callback registered the logs path answers 200, still dispatching no
callback. -/
theorem c8_unsupported_content_type (ct : String)
    (h1 : ct ≠ "application/x-protobuf") (h2 : ct ≠ "application/json") :
    handleTraces ct = (some 406, false) ∧
    handleLogs true ct = (some 406, false) ∧
    handleLogs false ct = (some 200, false) := by
  unfold handleTraces handleLogs
  simp [h1, h2]

/-- Witness for C8 at content type `text/csv`. -/
theorem c8_witness :
    handleTraces "text/csv" = (some 406, false) ∧
    handleLogs true "text/csv" = (some 406, false) ∧
    handleLogs false "text/csv" = (some 200, false) :=
  c8_unsupported_content_type "text/csv" (by decide) (by decide)

/-! ## C6: `SearchTraces` filters and result cap -/

/-- Generic fold invariant: a projection untouched by every step is
untouched by the fold. -/
theorem foldl_proj_eq {α β γ : Type} (f : α → β → α) (g : α → γ)
    (hf : ∀ a b, g (f a b) = g a) : ∀ (l : List β) (a : α), g (List.foldl f a l) = g a := by
  intro l
  induction l with
  | nil => intro a; rfl
  | cons b rest ih => intro a; rw [List.foldl_cons, ih, hf]

theorem scanCtxStep_traceID (t : TraceData) (file : String)
    (acc : TraceDigest × FileInsight) (c : CodeSpanContext) :
    (scanCtxStep t file acc c).1.traceID = acc.1.traceID := by
  simp only [scanCtxStep]
  split_ifs <;> rfl

theorem scanCtxStep_spanCount (t : TraceData) (file : String)
    (acc : TraceDigest × FileInsight) (c : CodeSpanContext) :
    (scanCtxStep t file acc c).1.spanCount = acc.1.spanCount := by
  simp only [scanCtxStep]
  split_ifs <;> rfl

theorem scanSpanStep_traceID (t : TraceData) (file : String)
    (acc : TraceDigest × FileInsight) (sp : String × SpanData) :
    (scanSpanStep t file acc sp).1.traceID = acc.1.traceID :=
  foldl_proj_eq _ (fun a => a.1.traceID) (scanCtxStep_traceID t file) _ acc

theorem scanSpanStep_spanCount (t : TraceData) (file : String)
    (acc : TraceDigest × FileInsight) (sp : String × SpanData) :
    (scanSpanStep t file acc sp).1.spanCount = acc.1.spanCount :=
  foldl_proj_eq _ (fun a => a.1.spanCount) (scanCtxStep_spanCount t file) _ acc

theorem buildDigestStep_traceID (t : TraceData)
    (acc : TraceDigest × List (String × FileInsight)) (file : String) :
    (buildDigestStep t acc file).1.traceID = acc.1.traceID := by
  simp only [buildDigestStep, scanContextsForFile]
  exact foldl_proj_eq _ (fun (a : TraceDigest × FileInsight) => a.1.traceID)
    (scanSpanStep_traceID t file) t.spans _

theorem buildDigestStep_spanCount (t : TraceData)
    (acc : TraceDigest × List (String × FileInsight)) (file : String) :
    (buildDigestStep t acc file).1.spanCount = acc.1.spanCount := by
  simp only [buildDigestStep, scanContextsForFile]
  exact foldl_proj_eq _ (fun (a : TraceDigest × FileInsight) => a.1.spanCount)
    (scanSpanStep_spanCount t file) t.spans _

theorem buildDigest_traceID (id : String) (t : TraceData)
    (ins : List (String × FileInsight)) : (buildDigest id t ins).1.traceID = id := by
  unfold buildDigest
  exact foldl_proj_eq _ (fun (a : TraceDigest × List (String × FileInsight)) => a.1.traceID)
    (buildDigestStep_traceID t) t.files _

theorem buildDigest_spanCount (id : String) (t : TraceData)
    (ins : List (String × FileInsight)) :
    (buildDigest id t ins).1.spanCount = t.spans.length := by
  unfold buildDigest
  exact foldl_proj_eq _ (fun (a : TraceDigest × List (String × FileInsight)) => a.1.spanCount)
    (buildDigestStep_spanCount t) t.files _

/-- What passing all three guards of the collection loop means, in source
order: age cutoff, then error status, then file membership. -/
theorem searchSkip_false_elim (req : SearchRequest) (fileSet : Option (List String))
    (minTime : Int) (tr : TraceData) (h : searchSkip req fileSet minTime tr = false) :
    (¬ minTime = 0 → ¬ tr.endTime < minTime) ∧
    (req.errorsOnly = true → tr.status = "error") ∧
    (∀ fset, fileSet = some fset → ∃ f ∈ tr.files, f ∈ fset) := by
  unfold searchSkip at h
  by_cases h1 : ¬ minTime = 0 ∧ tr.endTime < minTime
  · rw [if_pos h1] at h; cases h
  · rw [if_neg h1] at h
    by_cases h2 : req.errorsOnly = true ∧ tr.status ≠ "error"
    · rw [if_pos h2] at h; cases h
    · rw [if_neg h2] at h
      push_neg at h1 h2
      refine ⟨fun hmt => not_lt.2 (h1 hmt), fun he => h2 he, ?_⟩
      intro fset hfs
      rw [hfs] at h
      simp only [Bool.not_eq_false'] at h
      rw [List.any_eq_true] at h
      obtain ⟨f, hf, hc⟩ := h
      exact ⟨f, hf, by simpa using hc⟩

/-- Unrolled step of `searchLoop` on a cons cell. -/
theorem searchLoop_cons (req : SearchRequest) (fileSet : Option (List String)) (minTime : Int)
    (id : String) (tr : TraceData) (rest : List (String × TraceData))
    (acc : List TraceDigest) (ins : List (String × FileInsight)) :
    searchLoop req fileSet minTime ((id, tr) :: rest) acc ins =
      if searchSkip req fileSet minTime tr then
        searchLoop req fileSet minTime rest acc ins
      else if req.limit > 0 ∧
          (((acc ++ [(buildDigest id tr ins).1]).length : Int)) ≥ req.limit then
        (acc ++ [(buildDigest id tr ins).1], (buildDigest id tr ins).2)
      else searchLoop req fileSet minTime rest
        (acc ++ [(buildDigest id tr ins).1]) (buildDigest id tr ins).2 := rfl

/-- Soundness of the collection loop: every emitted digest comes from a
stored trace that passed all the filters. -/
theorem searchLoop_sound (req : SearchRequest) (fileSet : Option (List String)) (minTime : Int) :
    ∀ (l : List (String × TraceData)) (acc : List TraceDigest)
      (ins : List (String × FileInsight)) (d : TraceDigest),
      d ∈ (searchLoop req fileSet minTime l acc ins).1 →
      d ∈ acc ∨ ∃ p ∈ l, searchSkip req fileSet minTime p.2 = false ∧
        d.traceID = p.1 ∧ d.spanCount = p.2.spans.length := by
  intro l
  induction l with
  | nil => intro acc ins d hd; exact Or.inl hd
  | cons p rest ih =>
    intro acc ins d hd
    obtain ⟨id, tr⟩ := p
    rw [searchLoop_cons] at hd
    by_cases hskip : searchSkip req fileSet minTime tr = true
    · rw [if_pos hskip] at hd
      rcases ih acc ins d hd with h | ⟨q, hq, hs, h1, h2⟩
      · exact Or.inl h
      · exact Or.inr ⟨q, List.mem_cons_of_mem _ hq, hs, h1, h2⟩
    · rw [if_neg hskip] at hd
      have hskip' : searchSkip req fileSet minTime tr = false := by
        simpa using hskip
      have hdig : (buildDigest id tr ins).1.traceID = id ∧
          (buildDigest id tr ins).1.spanCount = tr.spans.length :=
        ⟨buildDigest_traceID id tr ins, buildDigest_spanCount id tr ins⟩
      by_cases hstop : req.limit > 0 ∧
          (((acc ++ [(buildDigest id tr ins).1]).length : Int)) ≥ req.limit
      · rw [if_pos hstop] at hd
        replace hd : d ∈ acc ++ [(buildDigest id tr ins).1] := hd
        rcases List.mem_append.1 hd with h | h
        · exact Or.inl h
        · rcases List.mem_singleton.1 h with rfl
          exact Or.inr ⟨(id, tr), List.mem_cons_self _ _, hskip', hdig.1, hdig.2⟩
      · rw [if_neg hstop] at hd
        rcases ih _ _ d hd with h | ⟨q, hq, hs, h1, h2⟩
        · rcases List.mem_append.1 h with h' | h'
          · exact Or.inl h'
          · rcases List.mem_singleton.1 h' with rfl
            exact Or.inr ⟨(id, tr), List.mem_cons_self _ _, hskip', hdig.1, hdig.2⟩
        · exact Or.inr ⟨q, List.mem_cons_of_mem _ hq, hs, h1, h2⟩

/-- The collection loop never exceeds the requested cap. -/
theorem searchLoop_length (req : SearchRequest) (fileSet : Option (List String)) (minTime : Int)
    (hlim : 0 < req.limit) :
    ∀ (l : List (String × TraceData)) (acc : List TraceDigest)
      (ins : List (String × FileInsight)),
      (acc.length : Int) < req.limit →
      (((searchLoop req fileSet minTime l acc ins).1.length : Int)) ≤ req.limit := by
  intro l
  induction l with
  | nil => intro acc ins hacc; exact le_of_lt hacc
  | cons p rest ih =>
    intro acc ins hacc
    obtain ⟨id, tr⟩ := p
    rw [searchLoop_cons]
    by_cases hskip : searchSkip req fileSet minTime tr = true
    · rw [if_pos hskip]
      exact ih acc ins hacc
    · rw [if_neg hskip]
      have hgrow : (((acc ++ [(buildDigest id tr ins).1]).length : Int)) = acc.length + 1 := by
        simp
      by_cases hstop : req.limit > 0 ∧
          (((acc ++ [(buildDigest id tr ins).1]).length : Int)) ≥ req.limit
      · rw [if_pos hstop]
        rw [hgrow]
        omega
      · rw [if_neg hstop]
        refine ih _ _ ?_
        rw [hgrow]
        rcases not_and_or.1 hstop with h | h
        · exact absurd hlim h
        · push_neg at h
          rw [hgrow] at h
          exact h

/-- C6: every digest returned by `SearchTraces` belongs to a stored trace
that passed, in source order, the age cutoff (when a time range parsed), the
errors-only status filter (status exactly "error"), and the file-membership
filter (the trace touches at least one requested file); and when a positive
`Limit` is requested at most `Limit` digests are returned. -/
theorem c6_search_filters_and_cap (store : TraceStore) (parseDur : String → Option Int)
    (req : SearchRequest) (now : Int) :
    (∀ d ∈ (SearchTraces store parseDur req now).traces,
      ∃ p ∈ store.traces, d.traceID = p.1 ∧ d.spanCount = p.2.spans.length ∧
        (¬ searchMinTime parseDur req now = 0 →
          ¬ p.2.endTime < searchMinTime parseDur req now) ∧
        (req.errorsOnly = true → p.2.status = "error") ∧
        (req.files ≠ [] → ∃ f ∈ p.2.files, f ∈ req.files)) ∧
    (0 < req.limit →
      (((SearchTraces store parseDur req now).traces.length : Int)) ≤ req.limit) := by
  have heq : (SearchTraces store parseDur req now).traces =
      (searchLoop req (if req.files.length > 0 then some req.files else none)
        (searchMinTime parseDur req now) store.traces [] []).1 := rfl
  constructor
  · intro d hd
    rw [heq] at hd
    rcases searchLoop_sound req _ _ store.traces [] [] d hd with h | ⟨p, hp, hs, h1, h2⟩
    · cases h
    · obtain ⟨ha, he, hf⟩ := searchSkip_false_elim req _ _ _ hs
      refine ⟨p, hp, h1, h2, ha, he, ?_⟩
      intro hfiles
      have hlen : req.files.length > 0 := List.length_pos.2 hfiles
      exact hf req.files (by rw [if_pos hlen])
  · intro hlim
    rw [heq]
    exact searchLoop_length req _ _ hlim store.traces [] [] (by simpa using hlim)

/-- Witness for C6: a two-trace store with `errorsOnly` and `Limit = 1`
returns at most one digest. -/
theorem c6_witness :
    (((SearchTraces
        { traces := [("01", TraceData.mk "01" none [] [] 0 10 "error" ""),
                     ("02", TraceData.mk "02" none [] [] 0 20 "error" "")],
          spansByFile := [], maxSpans := 0, retention := 0 }
        (fun _ => none)
        { query := "", files := [], timeRange := "", errorsOnly := true, limit := 1 }
        100).traces.length : Int)) ≤ 1 :=
  (c6_search_filters_and_cap
    { traces := [("01", TraceData.mk "01" none [] [] 0 10 "error" ""),
                 ("02", TraceData.mk "02" none [] [] 0 20 "error" "")],
      spansByFile := [], maxSpans := 0, retention := 0 }
    (fun _ => none)
    { query := "", files := [], timeRange := "", errorsOnly := true, limit := 1 }
    100).2 (by decide)

/-! ## Analyzer lemmas shared by C9 and C10 -/

theorem isPrefixList_append (l t : List Char) : isPrefixList l (l ++ t) = true := by
  induction l with
  | nil => rfl
  | cons a as ih => simp [isPrefixList, ih]

theorem splitOnSlash_cons (cs : List Char) : ∃ g gs, splitOnSlash cs = g :: gs := by
  induction cs with
  | nil => exact ⟨[], [], rfl⟩
  | cons c rest ih =>
    obtain ⟨g, gs, h⟩ := ih
    simp only [splitOnSlash, h]
    by_cases hc : c = '/'
    · exact ⟨[], g :: gs, by simp [hc]⟩
    · exact ⟨c :: g, gs, by simp [hc]⟩

/-- Splitting a path whose last section is separator-free detaches that
section. -/
theorem splitOnSlash_append (e : List Char) (he : splitOnSlash e = [e]) :
    ∀ xs, splitOnSlash (xs ++ '/' :: e) = splitOnSlash xs ++ [e] := by
  intro xs
  induction xs with
  | nil =>
    simp [splitOnSlash, he]
  | cons c rest ih =>
    obtain ⟨g, gs, h⟩ := splitOnSlash_cons rest
    have hl : splitOnSlash (c :: (rest ++ '/' :: e)) =
        match splitOnSlash (rest ++ '/' :: e) with
        | [] => [[]]
        | g' :: gs' => if c = '/' then [] :: g' :: gs' else (c :: g') :: gs' := rfl
    have hr2 : splitOnSlash (c :: rest) =
        match splitOnSlash rest with
        | [] => [[]]
        | g' :: gs' => if c = '/' then [] :: g' :: gs' else (c :: g') :: gs' := rfl
    show splitOnSlash (c :: (rest ++ '/' :: e)) = splitOnSlash (c :: rest) ++ [e]
    rw [hl, hr2, ih, h]
    by_cases hc : c = '/' <;> simp [hc]

/-- The `Clean` section loop keeps a trailing real section (one that is
not empty, `.`, or `..`) in final position. -/
theorem cleanElems_last (e : List Char) (hne : ¬(e = [] ∨ e = ['.']))
    (hdd : e ≠ ['.', '.']) :
    ∀ (rest : List (List Char)) (rooted : Bool) (acc : List (List Char)),
      ∃ front, cleanElems rooted acc (rest ++ [e]) = front ++ [e] := by
  intro rest
  induction rest with
  | nil =>
    intro rooted acc
    refine ⟨acc.reverse, ?_⟩
    simp only [List.nil_append, cleanElems, if_neg hne, if_neg hdd]
    simp [cleanElems]
  | cons r rest ih =>
    intro rooted acc
    simp only [List.cons_append, cleanElems]
    by_cases h1 : r = [] ∨ r = ['.']
    · rw [if_pos h1]
      exact ih rooted acc
    · rw [if_neg h1]
      by_cases h2 : r = ['.', '.']
      · rw [if_pos h2]
        exact ih rooted (dotdotPop rooted acc)
      · rw [if_neg h2]
        exact ih rooted (r :: acc)

theorem joinSlash_last (e : List Char) :
    ∀ front, ∃ pre, joinSlash (front ++ [e]) = pre ++ e := by
  intro front
  induction front with
  | nil => exact ⟨[], rfl⟩
  | cons f front ih =>
    obtain ⟨pre, hpre⟩ := ih
    cases front with
    | nil => exact ⟨f ++ ['/'], by simp [joinSlash]⟩
    | cons g front' =>
      refine ⟨f ++ '/' :: pre, ?_⟩
      have hstep : joinSlash ((f :: g :: front') ++ [e]) =
          f ++ '/' :: joinSlash ((g :: front') ++ [e]) := rfl
      rw [hstep, hpre]
      simp

/-- `Clean` keeps a separator-free real trailing section as a suffix. -/
theorem goClean_last (e : List Char) (hsplit : splitOnSlash e = [e])
    (hne : ¬(e = [] ∨ e = ['.'])) (hdd : e ≠ ['.', '.']) (xs : List Char) :
    ∃ pre, (goClean (String.mk (xs ++ '/' :: e))).data = pre ++ e := by
  have hnonempty : ¬ String.mk (xs ++ '/' :: e) = "" := by
    intro h
    have hd : xs ++ '/' :: e = [] := congrArg String.data h
    simp at hd
  obtain ⟨front, hfront⟩ := cleanElems_last e hne hdd (splitOnSlash xs)
    (goIsAbs (String.mk (xs ++ '/' :: e))) []
  obtain ⟨pre0, hpre0⟩ := joinSlash_last e front
  have henil : e ≠ [] := fun h => hne (Or.inl h)
  have hbody : ¬ pre0 ++ e = [] := by simp [henil]
  by_cases hr : goIsAbs (String.mk (xs ++ '/' :: e)) = true
  · refine ⟨'/' :: pre0, ?_⟩
    simp only [goClean]
    rw [if_neg hnonempty, splitOnSlash_append e hsplit xs, hfront, hpre0, if_pos hr]
    rfl
  · refine ⟨pre0, ?_⟩
    simp only [goClean]
    rw [if_neg hnonempty, splitOnSlash_append e hsplit xs, hfront, hpre0, if_neg hr,
      if_neg hbody]

/-- Joining `handler.go` under any project root yields a path ending in
`handler.go` (even though `Clean` may rewrite the root part). -/
theorem goJoin_handler (root : String) :
    ∃ pre, goJoin root "handler.go" = pre ++ "handler.go" := by
  by_cases hroot : root = ""
  · exact ⟨"", by rw [hroot]; decide⟩
  · obtain ⟨pre, hpre⟩ := goClean_last ("handler.go".data) (by decide) (by decide)
      (by decide) root.data
    refine ⟨String.mk pre, ?_⟩
    have h1 : goJoin root "handler.go" = goClean (root ++ "/" ++ "handler.go") := by
      simp only [goJoin]
      rw [if_neg hroot, if_neg (by decide : ¬("handler.go" : String) = "")]
    have h2 : root ++ "/" ++ "handler.go" =
        String.mk (root.data ++ '/' :: "handler.go".data) := by
      have hd : (root ++ "/" ++ "handler.go").data =
          root.data ++ '/' :: "handler.go".data := by
        rw [String.data_append, String.data_append, List.append_assoc]
        rfl
      rw [← hd]
    have h4 : goClean (String.mk (root.data ++ '/' :: "handler.go".data)) =
        String.mk (pre ++ "handler.go".data) := by
      rw [← hpre]
    rw [h1, h2, h4]
    rfl

theorem enrichLineBounds_ids (c : CodeSpanContext) :
    (enrichLineBounds c).traceID = c.traceID ∧ (enrichLineBounds c).spanID = c.spanID ∧
    (enrichLineBounds c).filePath = c.filePath ∧
    (enrichLineBounds c).operation = c.operation := by
  simp only [enrichLineBounds]
  split_ifs <;> simp

theorem buildSnapshot_ids (lines : List String) (c : CodeSpanContext) :
    (buildSnapshot lines c).traceID = c.traceID ∧ (buildSnapshot lines c).spanID = c.spanID ∧
    (buildSnapshot lines c).filePath = c.filePath ∧
    (buildSnapshot lines c).operation = c.operation ∧
    (buildSnapshot lines c).lineStart = c.lineStart ∧
    (buildSnapshot lines c).lineEnd = c.lineEnd := by
  unfold buildSnapshot
  exact ⟨rfl, rfl, rfl, rfl, rfl, rfl⟩

theorem applyInferName_ids (inferName : String → String → String) (c : CodeSpanContext) :
    (applyInferName inferName c).traceID = c.traceID ∧
    (applyInferName inferName c).spanID = c.spanID ∧
    (applyInferName inferName c).filePath = c.filePath ∧
    (applyInferName inferName c).operation = c.operation ∧
    (applyInferName inferName c).lineStart = c.lineStart ∧
    (applyInferName inferName c).lineEnd = c.lineEnd := by
  unfold applyInferName
  split_ifs <;> simp

/-- `enrichWithFileContents` never touches the identity fields. -/
theorem enrich_ids (fs : String → Option (List String)) (inferName : String → String → String)
    (c : CodeSpanContext) :
    (enrichWithFileContents fs inferName c).traceID = c.traceID ∧
    (enrichWithFileContents fs inferName c).spanID = c.spanID ∧
    (enrichWithFileContents fs inferName c).filePath = c.filePath ∧
    (enrichWithFileContents fs inferName c).operation = c.operation := by
  unfold enrichWithFileContents
  by_cases h0 : c.filePath = ""
  · simp [h0]
  · rw [if_neg h0]
    cases hfs : fs c.filePath with
    | none => simp
    | some lines =>
      obtain ⟨a1, a2, a3, a4, _, _⟩ := applyInferName_ids inferName
        (buildSnapshot lines (enrichLineBounds c))
      obtain ⟨b1, b2, b3, b4, _, _⟩ := buildSnapshot_ids lines (enrichLineBounds c)
      obtain ⟨c1, c2, c3, c4⟩ := enrichLineBounds_ids c
      exact ⟨by rw [a1, b1, c1], by rw [a2, b2, c2], by rw [a3, b3, c3], by rw [a4, b4, c4]⟩

theorem enrichLineBounds_in_range (c : CodeSpanContext) (h1 : 0 < c.lineStart)
    (h2 : c.lineStart < c.lineEnd) (h3 : c.lineEnd - c.lineStart ≤ 50) :
    enrichLineBounds c = c := by
  simp only [enrichLineBounds]
  rw [if_neg (by omega : ¬ c.lineStart ≤ 0)]
  rw [if_neg (by omega : ¬ c.lineEnd ≤ c.lineStart)]
  rw [if_neg (by omega : ¬ c.lineEnd - c.lineStart > 50)]

/-- `enrichWithFileContents` keeps an in-range line window unchanged. -/
theorem enrich_lines (fs : String → Option (List String)) (inferName : String → String → String)
    (c : CodeSpanContext) (h1 : 0 < c.lineStart) (h2 : c.lineStart < c.lineEnd)
    (h3 : c.lineEnd - c.lineStart ≤ 50) :
    (enrichWithFileContents fs inferName c).lineStart = c.lineStart ∧
    (enrichWithFileContents fs inferName c).lineEnd = c.lineEnd := by
  unfold enrichWithFileContents
  by_cases h0 : c.filePath = ""
  · simp [h0]
  · rw [if_neg h0]
    cases hfs : fs c.filePath with
    | none => simp
    | some lines =>
      rw [enrichLineBounds_in_range c h1 h2 h3]
      obtain ⟨_, _, _, _, a5, a6⟩ := applyInferName_ids inferName (buildSnapshot lines c)
      obtain ⟨_, _, _, _, b5, b6⟩ := buildSnapshot_ids lines c
      exact ⟨by rw [a5, b5], by rw [a6, b6]⟩

/-! ## C9: stack-trace extraction -/

/-- The stack-trace pattern finds exactly one `path:line` match in the
claim's input. -/
theorem c9_matches :
    findFileLineMatches ("handler.go:42: nil pointer".data) = [("handler.go", "42")] := by
  decide

theorem c9_processStackTrace (projectRoot : String) (fs : String → Option (List String))
    (inferName : String → String → String)
    (hchk : isFileInProject projectRoot (goJoin projectRoot "handler.go") = true) :
    processStackTrace projectRoot fs inferName c9event =
      [enrichWithFileContents fs inferName (c9ctx projectRoot)] := by
  have e1 : processStackTrace projectRoot fs inferName c9event =
      (findFileLineMatches ("handler.go:42: nil pointer".data)).foldl
        (stackMatchStep projectRoot fs inferName) [] := rfl
  rw [e1, c9_matches]
  have e3 : List.foldl (stackMatchStep projectRoot fs inferName) [] [("handler.go", "42")] =
      (if isFileInProject projectRoot (goJoin projectRoot "handler.go") then
        [] ++ [enrichWithFileContents fs inferName (c9ctx projectRoot)]
      else []) := rfl
  rw [e3, if_pos hchk]
  rfl

/-- Counterexample to the original C9 reading: with project root `.`,
`filepath.Join` cleans `./handler.go` to `handler.go`, the
`strings.HasPrefix` project check fails, and the analyzer extracts no
context at all. -/
theorem c9_counterexample :
    AnalyzeSpan "." (fun _ => none) (fun _ _ => "") c9span [c9event] = [] := by
  have hana : AnalyzeSpan "." (fun _ => none) (fun _ _ => "") c9span [c9event] =
      ([] ++ processStackTrace "." (fun _ => none) (fun _ _ => "") c9event) ++
        extractFilePathsFromEvent "." (fun _ => none) (fun _ _ => "") c9event := rfl
  have e1 : processStackTrace "." (fun _ => none) (fun _ _ => "") c9event =
      (findFileLineMatches ("handler.go:42: nil pointer".data)).foldl
        (stackMatchStep "." (fun _ => none) (fun _ _ => "")) [] := rfl
  have e3 : List.foldl (stackMatchStep "." (fun _ => none) (fun _ _ => "")) []
      [("handler.go", "42")] = ([] : List CodeSpanContext) := rfl
  have hee : extractFilePathsFromEvent "." (fun _ => none) (fun _ _ => "") c9event = [] := rfl
  rw [hana, e1, c9_matches, e3, hee]
  rfl

/-- C9: for an event named `exception` carrying
`stack_trace = "handler.go:42: nil pointer"`, whenever the in-project
check accepts the root-joined path (as it does for an absolute project
root such as `/project`, or an empty one — but not for `.`, where `Clean`
strips the `./` prefix and the check fails), the analyzer extracts exactly
one code context; its file path is the match joined under the project root
(so it ends in `handler.go`), its window is lines 42 through 52 (ten lines
past the start), and its operation is `exception` — for every file-system
content. -/
theorem c9_exception_stack_trace (projectRoot : String) (fs : String → Option (List String))
    (inferName : String → String → String)
    (hchk : isFileInProject projectRoot (goJoin projectRoot "handler.go") = true) :
    ∃ ctx, AnalyzeSpan projectRoot fs inferName c9span [c9event] = [ctx] ∧
      (∃ pre, ctx.filePath = pre ++ "handler.go") ∧
      ctx.lineStart = 42 ∧ ctx.lineEnd = 52 ∧ ctx.operation = "exception" := by
  have hana : AnalyzeSpan projectRoot fs inferName c9span [c9event] =
      ([] ++ processStackTrace projectRoot fs inferName c9event) ++
        extractFilePathsFromEvent projectRoot fs inferName c9event := rfl
  have hee : extractFilePathsFromEvent projectRoot fs inferName c9event = [] := rfl
  refine ⟨enrichWithFileContents fs inferName (c9ctx projectRoot), ?_, ?_, ?_, ?_, ?_⟩
  · rw [hana, c9_processStackTrace projectRoot fs inferName hchk, hee]
    simp
  · have hfp : (enrichWithFileContents fs inferName (c9ctx projectRoot)).filePath =
        goJoin projectRoot "handler.go" :=
      (enrich_ids fs inferName (c9ctx projectRoot)).2.2.1
    obtain ⟨pre, hpre⟩ := goJoin_handler projectRoot
    refine ⟨pre, ?_⟩
    rw [hfp, hpre]
  · exact (enrich_lines fs inferName (c9ctx projectRoot)
      (by norm_num [c9ctx]) (by norm_num [c9ctx]) (by norm_num [c9ctx])).1
  · exact (enrich_lines fs inferName (c9ctx projectRoot)
      (by norm_num [c9ctx]) (by norm_num [c9ctx]) (by norm_num [c9ctx])).2
  · exact (enrich_ids fs inferName (c9ctx projectRoot)).2.2.2

theorem c9_witness :
    isFileInProject "/project" (goJoin "/project" "handler.go") = true ∧
    ∃ ctx, AnalyzeSpan "/project" (fun _ => none) (fun _ _ => "") c9span [c9event] = [ctx] ∧
      (∃ pre, ctx.filePath = pre ++ "handler.go") ∧
      ctx.lineStart = 42 ∧ ctx.lineEnd = 52 ∧ ctx.operation = "exception" :=
  ⟨by decide,
    c9_exception_stack_trace "/project" (fun _ => none) (fun _ _ => "") (by decide)⟩

/-! ## C10: which contexts carry span/trace ids, and `GetFileTraces` grouping -/

/-- Generic fold accumulation: every element of the fold's output is either
in the seed or satisfies the step's production property. -/
theorem foldl_mem_or {α β : Type} (f : List α → β → List α) (P : α → Prop)
    (hf : ∀ acc b x, x ∈ f acc b → x ∈ acc ∨ P x) :
    ∀ (l : List β) (acc : List α) (x : α), x ∈ List.foldl f acc l → x ∈ acc ∨ P x := by
  intro l
  induction l with
  | nil => intro acc x h; exact Or.inl h
  | cons b rest ih =>
    intro acc x h
    rcases ih (f acc b) x h with h' | h'
    · exact hf acc b x h'
    · exact Or.inr h'

theorem mem_append_enrich (fs : String → Option (List String))
    (inferName : String → String → String) (acc : List CodeSpanContext)
    (c x : CodeSpanContext)
    (h : x ∈ acc ++ [enrichWithFileContents fs inferName c]) :
    x ∈ acc ∨ (x.traceID = c.traceID ∧ x.spanID = c.spanID) := by
  rcases List.mem_append.1 h with h' | h'
  · exact Or.inl h'
  · rcases List.mem_singleton.1 h' with rfl
    exact Or.inr ⟨(enrich_ids fs inferName c).1, (enrich_ids fs inferName c).2.1⟩

theorem extractEventAttrStep_mem (projectRoot : String) (fs : String → Option (List String))
    (inferName : String → String → String) (event : SpanEvent) :
    ∀ (acc : List CodeSpanContext) (attr : String × String) (x : CodeSpanContext),
      x ∈ extractEventAttrStep projectRoot fs inferName event acc attr →
      x ∈ acc ∨ (x.traceID = "" ∧ x.spanID = "") := by
  intro acc attr x h
  simp only [extractEventAttrStep] at h
  split_ifs at h <;>
    first
    | exact Or.inl h
    | exact (mem_append_enrich fs inferName acc _ x h).imp id (fun hp => ⟨hp.1, hp.2⟩)

theorem stackMatchStep_mem (projectRoot : String) (fs : String → Option (List String))
    (inferName : String → String → String) :
    ∀ (acc : List CodeSpanContext) (m : String × String) (x : CodeSpanContext),
      x ∈ stackMatchStep projectRoot fs inferName acc m →
      x ∈ acc ∨ (x.traceID = "" ∧ x.spanID = "") := by
  intro acc m x h
  simp only [stackMatchStep] at h
  split_ifs at h <;>
    first
    | exact Or.inl h
    | exact (mem_append_enrich fs inferName acc _ x h).imp id (fun hp => ⟨hp.1, hp.2⟩)

theorem extractSpanAttrStep_mem (projectRoot : String) (fs : String → Option (List String))
    (inferName : String → String → String) (span : SpanProto) :
    ∀ (acc : List CodeSpanContext) (attr : String × String) (x : CodeSpanContext),
      x ∈ extractSpanAttrStep projectRoot fs inferName span acc attr →
      x ∈ acc ∨ (x.traceID = hexEncode span.traceId ∧ x.spanID = hexEncode span.spanId) := by
  intro acc attr x h
  simp only [extractSpanAttrStep] at h
  split_ifs at h <;>
    first
    | exact Or.inl h
    | exact (mem_append_enrich fs inferName acc _ x h).imp id (fun hp => ⟨hp.1, hp.2⟩)

theorem processStackTrace_mem (projectRoot : String) (fs : String → Option (List String))
    (inferName : String → String → String) (event : SpanEvent) (x : CodeSpanContext)
    (h : x ∈ processStackTrace projectRoot fs inferName event) :
    x.traceID = "" ∧ x.spanID = "" := by
  simp only [processStackTrace] at h
  split at h
  · cases h
  · rcases foldl_mem_or _ _ (stackMatchStep_mem projectRoot fs inferName) _ _ x h with h' | h'
    · cases h'
    · exact h'

theorem groupStep_mono (result : List (String × List CodeSpanContext))
    (sc c : CodeSpanContext) (tid : String)
    (h : c ∈ (lookupA result tid).getD []) :
    c ∈ (lookupA (groupByTraceStep result sc) tid).getD [] := by
  unfold groupByTraceStep
  by_cases ht : sc.traceID = tid
  · rw [ht, lookupA_upsertA_self]
    exact List.mem_append_left _ h
  · rw [lookupA_upsertA_ne _ _ _ _ ht]
    exact h

theorem groupStep_self (result : List (String × List CodeSpanContext)) (sc : CodeSpanContext) :
    sc ∈ (lookupA (groupByTraceStep result sc) sc.traceID).getD [] := by
  unfold groupByTraceStep
  rw [lookupA_upsertA_self]
  exact List.mem_append_right _ (List.mem_singleton_self _)

theorem groupFold_mono :
    ∀ (bucket : List CodeSpanContext) (result : List (String × List CodeSpanContext))
      (tid : String) (c : CodeSpanContext),
      c ∈ (lookupA result tid).getD [] →
      c ∈ (lookupA (bucket.foldl groupByTraceStep result) tid).getD [] := by
  intro bucket
  induction bucket with
  | nil => intro result tid c h; exact h
  | cons sc rest ih =>
    intro result tid c h
    exact ih _ _ _ (groupStep_mono result sc c tid h)

theorem groupFold_mem :
    ∀ (bucket : List CodeSpanContext) (result : List (String × List CodeSpanContext))
      (c : CodeSpanContext), c ∈ bucket →
      c ∈ (lookupA (bucket.foldl groupByTraceStep result) c.traceID).getD [] := by
  intro bucket
  induction bucket with
  | nil => intro _ c h; cases h
  | cons sc rest ih =>
    intro result c h
    rcases List.mem_cons.1 h with rfl | h'
    · exact groupFold_mono rest _ _ _ (groupStep_self result c)
    · exact ih _ c h'

/-- C10: only contexts extracted from span attributes carry the owning
span's hex-encoded trace and span ids; every context produced from event
attributes or parsed out of a stack trace leaves both ids at the zero value
`""`; and `GetFileTraces` groups every indexed context for a file under its
`TraceID` field — so event-derived and stack-trace-derived contexts land
under the empty-string key. -/
theorem c10_context_ids_and_grouping (projectRoot : String)
    (fs : String → Option (List String)) (inferName : String → String → String) :
    (∀ (event : SpanEvent) (x : CodeSpanContext),
      x ∈ extractFilePathsFromEvent projectRoot fs inferName event →
      x.traceID = "" ∧ x.spanID = "") ∧
    (∀ (event : SpanEvent) (x : CodeSpanContext),
      x ∈ processStackTrace projectRoot fs inferName event →
      x.traceID = "" ∧ x.spanID = "") ∧
    (∀ (span : SpanProto) (x : CodeSpanContext),
      x ∈ extractFilePathsFromSpan projectRoot fs inferName span →
      x.traceID = hexEncode span.traceId ∧ x.spanID = hexEncode span.spanId) ∧
    (∀ (store : TraceStore) (path : String) (x : CodeSpanContext),
      x ∈ (lookupA store.spansByFile path).getD [] →
      x ∈ (lookupA (GetFileTraces store path) x.traceID).getD []) := by
  refine ⟨?_, ?_, ?_, ?_⟩
  · intro event x h
    rcases foldl_mem_or _ _ (extractEventAttrStep_mem projectRoot fs inferName event)
      event.attributes [] x h with h' | h'
    · cases h'
    · exact h'
  · exact fun event x h => processStackTrace_mem projectRoot fs inferName event x h
  · intro span x h
    rcases foldl_mem_or _ _ (extractSpanAttrStep_mem projectRoot fs inferName span)
      span.attributes [] x h with h' | h'
    · cases h'
    · exact h'
  · intro store path x h
    exact groupFold_mem _ [] x h

/-- Witness for C10: a store whose `a.go` bucket holds one event-derived
context groups it under the empty-string trace id. -/
theorem c10_witness :
    evtCtx ∈ (lookupA (GetFileTraces
      { traces := [], spansByFile := [("a.go", [evtCtx])], maxSpans := 0, retention := 0 }
      "a.go") "").getD [] :=
  (c10_context_ids_and_grouping "" (fun _ => none) (fun _ _ => "")).2.2.2
    { traces := [], spansByFile := [("a.go", [evtCtx])], maxSpans := 0, retention := 0 }
    "a.go" evtCtx (by decide)

/-! ## C3: the size pass of the eviction sweep -/

theorem innerPass_snd_length (x : String × Int) (l : List (String × Int)) :
    ((innerPass x l).2).length = l.length := by
  induction l generalizing x with
  | nil => simp [innerPass]
  | cons y rest ih =>
    by_cases h : x.2 > y.2 <;> simp [innerPass, h, ih]

theorem innerPass_min (x : String × Int) (l : List (String × Int)) :
    (innerPass x l).1.2 ≤ x.2 ∧ ∀ z ∈ (innerPass x l).2, (innerPass x l).1.2 ≤ z.2 := by
  induction l generalizing x with
  | nil => simp [innerPass]
  | cons y rest ih =>
    by_cases h : x.2 > y.2
    · obtain ⟨h1, h2⟩ := ih y
      simp only [innerPass, if_pos h]
      refine ⟨le_of_lt (lt_of_le_of_lt h1 h), ?_⟩
      intro z hz
      rcases List.mem_cons.1 hz with rfl | hz'
      · exact le_of_lt (lt_of_le_of_lt h1 h)
      · exact h2 z hz'
    · obtain ⟨h1, h2⟩ := ih x
      simp only [innerPass, if_neg h]
      refine ⟨h1, ?_⟩
      intro z hz
      rcases List.mem_cons.1 hz with rfl | hz'
      · exact le_trans h1 (le_of_not_lt h)
      · exact h2 z hz'

theorem innerPass_perm (x : String × Int) (l : List (String × Int)) :
    List.Perm ((innerPass x l).1 :: (innerPass x l).2) (x :: l) := by
  induction l generalizing x with
  | nil => simp [innerPass]
  | cons y rest ih =>
    by_cases h : x.2 > y.2
    · simp only [innerPass, if_pos h]
      exact (List.Perm.swap x (innerPass y rest).1 (innerPass y rest).2).trans
        (List.Perm.cons x (ih y))
    · simp only [innerPass, if_neg h]
      exact ((List.Perm.swap y (innerPass x rest).1 (innerPass x rest).2).trans
        (List.Perm.cons y (ih x))).trans (List.Perm.swap x y rest)

theorem sortAgesAux_perm :
    ∀ (fuel : Nat) (l : List (String × Int)), l.length ≤ fuel →
      List.Perm (sortAgesAux fuel l) l := by
  intro fuel
  induction fuel with
  | zero =>
    intro l hl
    have he : l = [] := List.length_eq_zero.1 (Nat.le_zero.1 hl)
    subst he
    exact List.Perm.refl _
  | succ n ih =>
    intro l hl
    cases l with
    | nil => exact List.Perm.refl _
    | cons x rest =>
      have hlen : ((innerPass x rest).2).length ≤ n := by
        rw [innerPass_snd_length]
        exact Nat.le_of_succ_le_succ hl
      exact (List.Perm.cons _ (ih _ hlen)).trans (innerPass_perm x rest)

theorem sortAgesAux_sorted :
    ∀ (fuel : Nat) (l : List (String × Int)), l.length ≤ fuel →
      (sortAgesAux fuel l).Pairwise (fun a b => a.2 ≤ b.2) := by
  intro fuel
  induction fuel with
  | zero =>
    intro l hl
    have he : l = [] := List.length_eq_zero.1 (Nat.le_zero.1 hl)
    subst he
    exact List.Pairwise.nil
  | succ n ih =>
    intro l hl
    cases l with
    | nil => exact List.Pairwise.nil
    | cons x rest =>
      have hlen : ((innerPass x rest).2).length ≤ n := by
        rw [innerPass_snd_length]
        exact Nat.le_of_succ_le_succ hl
      refine List.Pairwise.cons ?_ (ih _ hlen)
      intro z hz
      have hz' : z ∈ (innerPass x rest).2 :=
        (sortAgesAux_perm n _ hlen).mem_iff.1 hz
      exact (innerPass_min x rest).2 z hz'

theorem sortAges_perm (l : List (String × Int)) : List.Perm (sortAges l) l :=
  sortAgesAux_perm l.length l (le_refl _)

theorem sortAges_sorted (l : List (String × Int)) :
    (sortAges l).Pairwise (fun a b => a.2 ≤ b.2) :=
  sortAgesAux_sorted l.length l (le_refl _)

/-- Everything the size-selection loop guarantees: the recorded ids extend
the accumulator by a prefix of the remaining (sorted) candidate keys, the
running total tracks the removed span counts, and the loop only ends with
the total at or under the cap or the candidates exhausted. -/
theorem sizeLoop_spec (m : Int) (traces : List (String × TraceData)) :
    ∀ (l : List (String × Int)) (tot : Int) (ids : List String),
      ∃ new : List String,
        (sizeLoop m traces l tot ids).2 = ids ++ new ∧
        new <+: l.map Prod.fst ∧
        (sizeLoop m traces l tot ids).1 = tot - (new.map (cntOf traces)).sum ∧
        ((sizeLoop m traces l tot ids).1 ≤ m ∨ new = l.map Prod.fst) := by
  intro l
  induction l with
  | nil =>
    intro tot ids
    exact ⟨[], by simp [sizeLoop], by simp, by simp [sizeLoop], Or.inr rfl⟩
  | cons ta rest ih =>
    intro tot ids
    by_cases hstop : tot ≤ m
    · refine ⟨[], ?_, by simp, ?_, Or.inl ?_⟩
      · simp [sizeLoop, hstop]
      · simp [sizeLoop, hstop]
      · simp only [sizeLoop, if_pos hstop]
        exact hstop
    · obtain ⟨new, h1, h2, h3, h4⟩ := ih (tot - cntOf traces ta.1) (ids ++ [ta.1])
      have hstep : sizeLoop m traces (ta :: rest) tot ids =
          sizeLoop m traces rest (tot - cntOf traces ta.1) (ids ++ [ta.1]) := by
        simp [sizeLoop, hstop]
      refine ⟨ta.1 :: new, ?_, ?_, ?_, ?_⟩
      · rw [hstep, h1, List.append_assoc]
        rfl
      · obtain ⟨t, ht⟩ := h2
        exact ⟨t, by rw [List.map_cons, List.cons_append, ht]⟩
      · rw [hstep, h3, List.map_cons, List.sum_cons]
        ring
      · rcases h4 with h | h
        · exact Or.inl (by rw [hstep]; exact h)
        · exact Or.inr (by rw [List.map_cons, h])

theorem containsKeyA_iff_mem_keys {α : Type} (l : List (String × α)) (k : String) :
    containsKeyA l k = true ↔ k ∈ l.map Prod.fst := by
  induction l with
  | nil => simp [containsKeyA, lookupA]
  | cons p rest ih =>
    by_cases h : p.1 = k
    · simp [containsKeyA, lookupA, h]
    · simp only [containsKeyA, lookupA, if_neg h, List.map_cons, List.mem_cons]
      rw [← containsKeyA]
      rw [ih]
      constructor
      · exact fun hm => Or.inr hm
      · rintro (hm | hm)
        · exact absurd hm.symm h
        · exact hm

theorem nodup_key_unique {α : Type} (l : List (String × α)) (hk : (l.map Prod.fst).Nodup)
    (k : String) (a b : α) (ha : (k, a) ∈ l) (hb : (k, b) ∈ l) : a = b := by
  induction l with
  | nil => cases ha
  | cons p rest ih =>
    simp only [List.map_cons, List.nodup_cons] at hk
    rcases List.mem_cons.1 ha with h1 | h1 <;> rcases List.mem_cons.1 hb with h2 | h2
    · exact congrArg Prod.snd (h1.trans h2.symm)
    · exfalso
      apply hk.1
      have hm := List.mem_map_of_mem Prod.fst h2
      rw [← h1]
      exact hm
    · exfalso
      apply hk.1
      have hm := List.mem_map_of_mem Prod.fst h1
      rw [← h2]
      exact hm
    · exact ih hk.2 h1 h2

theorem lookupA_deleteKeyA_ne {α : Type} (l : List (String × α)) (k k' : String)
    (h : k' ≠ k) : lookupA (deleteKeyA l k) k' = lookupA l k' := by
  induction l with
  | nil => rfl
  | cons p rest ih =>
    by_cases hp : p.1 = k
    · have hd : decide (p.1 ≠ k) = false := by simp [hp]
      have hgoal : deleteKeyA (p :: rest) k = deleteKeyA rest k := by
        simp [deleteKeyA, List.filter_cons, hp]
      rw [hgoal, ih]
      have hne : p.1 ≠ k' := by
        rw [hp]
        exact fun he => h he.symm
      simp [lookupA, hne]
    · have hd : decide (p.1 ≠ k) = true := by simp [hp]
      have hgoal : deleteKeyA (p :: rest) k = p :: deleteKeyA rest k := by
        simp [deleteKeyA, List.filter_cons, hp]
      rw [hgoal]
      by_cases hk' : p.1 = k'
      · simp [lookupA, hk']
      · simp only [lookupA, if_neg hk']
        exact ih

theorem foldl_add_sum {α : Type} (f : α → Int) (l : List α) :
    ∀ c : Int, l.foldl (fun acc z => acc + f z) c = c + (l.map f).sum := by
  induction l with
  | nil => intro c; simp
  | cons z rest ih =>
    intro c
    rw [List.foldl_cons, ih, List.map_cons, List.sum_cons]
    ring

theorem totalSpanCount_eq_sum (tr : List (String × TraceData)) :
    totalSpanCount tr = (tr.map (fun p => (p.2.spans.length : Int))).sum := by
  unfold totalSpanCount
  rw [foldl_add_sum]
  ring

theorem removeTrace_traces (st : TraceStore) (id : String) :
    (removeTrace st id).traces = deleteKeyA st.traces id := by
  unfold removeTrace
  cases h : lookupA st.traces id with
  | none =>
    have hall : ∀ p ∈ st.traces, (fun p => decide (p.1 ≠ id)) p = true :=
      fun p hp => decide_eq_true ((lookupA_eq_none_iff _ _).1 h p hp)
    exact (List.filter_eq_self.mpr hall).symm
  | some t => rfl

theorem not_mem_cons_decide (id : String) (rest : List String) (a : String) :
    (decide (¬ a ∈ rest) && decide (a ≠ id)) = decide (¬ a ∈ id :: rest) := by
  by_cases h1 : a = id <;> by_cases h2 : a ∈ rest <;> simp [h1, h2]

theorem foldl_removeTrace_traces :
    ∀ (ids : List String) (st : TraceStore),
      (ids.foldl removeTrace st).traces =
        st.traces.filter (fun p => decide (¬ p.1 ∈ ids)) := by
  intro ids
  induction ids with
  | nil => intro st; simp
  | cons id rest ih =>
    intro st
    rw [List.foldl_cons, ih, removeTrace_traces]
    unfold deleteKeyA
    rw [List.filter_filter]
    exact List.filter_congr (fun p _ => not_mem_cons_decide id rest p.1)

theorem sum_deleteKey (tr : List (String × TraceData)) (id : String) (t : TraceData)
    (hk : (tr.map Prod.fst).Nodup) (h : lookupA tr id = some t) :
    ((deleteKeyA tr id).map (fun p => (p.2.spans.length : Int))).sum =
      (tr.map (fun p => (p.2.spans.length : Int))).sum - (t.spans.length : Int) := by
  induction tr with
  | nil => simp [lookupA] at h
  | cons p rest ih =>
    simp only [List.map_cons, List.nodup_cons] at hk
    by_cases hp : p.1 = id
    · have ht : p.2 = t := by
        simpa [lookupA, hp] using h
      have hd : decide (p.1 ≠ id) = false := by simp [hp]
      have hrest : deleteKeyA rest id = rest := by
        refine List.filter_eq_self.mpr (fun q hq => decide_eq_true ?_)
        intro he
        apply hk.1
        have hm := List.mem_map_of_mem Prod.fst hq
        rw [hp, ← he]
        exact hm
      have hgoal : deleteKeyA (p :: rest) id = deleteKeyA rest id := by
        simp [deleteKeyA, List.filter_cons, hp]
      rw [hgoal, hrest, List.map_cons, List.sum_cons, ← ht]
      ring
    · have hd : decide (p.1 ≠ id) = true := by simp [hp]
      have hrl : lookupA rest id = some t := by
        simpa [lookupA, hp] using h
      have hgoal : deleteKeyA (p :: rest) id = p :: deleteKeyA rest id := by
        simp [deleteKeyA, List.filter_cons, hp]
      rw [hgoal, List.map_cons, List.sum_cons, List.map_cons, List.sum_cons,
        ih hk.2 hrl]
      ring

theorem sum_filter_not_mem :
    ∀ (new : List String) (tr : List (String × TraceData)),
      (tr.map Prod.fst).Nodup → new.Nodup →
      (∀ i ∈ new, containsKeyA tr i = true) →
      ((tr.filter (fun p => decide (¬ p.1 ∈ new))).map
        (fun p => (p.2.spans.length : Int))).sum =
        (tr.map (fun p => (p.2.spans.length : Int))).sum - (new.map (cntOf tr)).sum := by
  intro new
  induction new with
  | nil => intro tr _ _ _; simp
  | cons id rest ih =>
    intro tr hk hnd hsub
    obtain ⟨t, ht⟩ : ∃ t, lookupA tr id = some t := by
      have hc := hsub id (List.mem_cons_self _ _)
      unfold containsKeyA at hc
      exact Option.isSome_iff_exists.1 hc
    obtain ⟨hnd1, hnd2⟩ := List.nodup_cons.1 hnd
    have hsplit : tr.filter (fun p => decide (¬ p.1 ∈ id :: rest)) =
        (deleteKeyA tr id).filter (fun p => decide (¬ p.1 ∈ rest)) := by
      unfold deleteKeyA
      rw [List.filter_filter]
      exact (List.filter_congr (fun p _ => not_mem_cons_decide id rest p.1)).symm
    have hk' : ((deleteKeyA tr id).map Prod.fst).Nodup :=
      hk.sublist ((List.filter_sublist tr).map Prod.fst)
    have hsub' : ∀ i ∈ rest, containsKeyA (deleteKeyA tr id) i = true := by
      intro i hi
      have hne : i ≠ id := fun he => hnd1 (he ▸ hi)
      have hci := hsub i (List.mem_cons_of_mem _ hi)
      unfold containsKeyA at hci ⊢
      rw [lookupA_deleteKeyA_ne _ _ _ hne]
      exact hci
    have hcnt : (rest.map (cntOf (deleteKeyA tr id))).sum = (rest.map (cntOf tr)).sum := by
      have : ∀ i ∈ rest, cntOf (deleteKeyA tr id) i = cntOf tr i := by
        intro i hi
        have hne : i ≠ id := fun he => hnd1 (he ▸ hi)
        unfold cntOf
        rw [lookupA_deleteKeyA_ne _ _ _ hne]
      rw [List.map_congr_left this]
    have hct : cntOf tr id = (t.spans.length : Int) := by
      unfold cntOf
      rw [ht]
      rfl
    rw [hsplit, ih (deleteKeyA tr id) hk' hnd2 hsub', hcnt,
      sum_deleteKey tr id t hk ht, List.map_cons, List.sum_cons, hct]
    ring

theorem containsKeyA_filter_nodup (tr : List (String × TraceData))
    (pred : String × TraceData → Bool) (p : String × TraceData)
    (hp : p ∈ tr) (hk : (tr.map Prod.fst).Nodup) :
    containsKeyA (tr.filter pred) p.1 = pred p := by
  cases hpred : pred p with
  | false =>
    unfold containsKeyA
    cases hl : lookupA (tr.filter pred) p.1 with
    | none => rfl
    | some v =>
      exfalso
      have hmem := lookupA_mem _ _ _ hl
      have h1 : (p.1, v) ∈ tr := List.mem_of_mem_filter hmem
      have h2 : pred (p.1, v) = true := List.of_mem_filter hmem
      have hv : v = p.2 := nodup_key_unique tr hk p.1 v p.2 h1 (by rw [Prod.mk.eta]; exact hp)
      rw [hv, Prod.mk.eta, hpred] at h2
      cases h2
  | true =>
    have hmemf : p ∈ tr.filter pred := List.mem_filter.2 ⟨hp, hpred⟩
    exact (containsKeyA_iff_mem_keys _ _).2 (List.mem_map_of_mem Prod.fst hmemf)

/-- C3: with `maxSpans = 10`, no retention window and 11 stored spans spread
over traces with pairwise-distinct end times, the triggering sweep leaves at
most 10 spans and removes exactly traces with the oldest end times (every
removed trace's end time is strictly below every kept trace's); and the size
pass runs only when the retention pass marked nothing — when retention did
mark a trace, the removed traces are exactly the expired ones. -/
theorem c3_size_pass (store : TraceStore) (now : Int)
    (hkeys : (store.traces.map Prod.fst).Nodup) :
    (store.retention ≤ 0 → store.maxSpans = 10 → totalSpanCount store.traces = 11 →
      List.Pairwise (fun p q => p.2.endTime ≠ q.2.endTime) store.traces →
      totalSpanCount (cleanupOldTraces store now).traces ≤ 10 ∧
      ∀ p ∈ store.traces, containsKeyA (cleanupOldTraces store now).traces p.1 = false →
        ∀ q ∈ (cleanupOldTraces store now).traces, p.2.endTime < q.2.endTime) ∧
    (store.retention > 0 →
      (∃ p ∈ store.traces, now - p.2.endTime > store.retention) →
      ∀ p ∈ store.traces,
        (containsKeyA (cleanupOldTraces store now).traces p.1 = false ↔
          now - p.2.endTime > store.retention)) := by
  constructor
  · intro hret hmax htot hdist
    have hg1 : ¬(store.maxSpans ≤ 0 ∧ store.retention ≤ 0) := by
      intro hc
      omega
    have hclean : cleanupOldTraces store now =
        ((sizeLoop store.maxSpans store.traces
            (sortAges (store.traces.map (fun p => (p.1, p.2.endTime))))
            (totalSpanCount store.traces) []).2).foldl removeTrace store := by
      simp only [cleanupOldTraces]
      rw [if_neg hg1]
      rw [if_neg (by omega : ¬ store.retention > 0)]
      rw [if_pos (⟨by omega, by omega, rfl⟩ :
        store.maxSpans > 0 ∧ totalSpanCount store.traces > store.maxSpans ∧
          ([] : List String) = [])]
    obtain ⟨new, hids, hpre, htot', hend⟩ := sizeLoop_spec store.maxSpans store.traces
      (sortAges (store.traces.map (fun p => (p.1, p.2.endTime))))
      (totalSpanCount store.traces) []
    have hids' : (sizeLoop store.maxSpans store.traces
        (sortAges (store.traces.map (fun p => (p.1, p.2.endTime))))
        (totalSpanCount store.traces) []).2 = new := by
      rw [hids]
      rfl
    have hperm : List.Perm (sortAges (store.traces.map (fun p => (p.1, p.2.endTime))))
        (store.traces.map (fun p => (p.1, p.2.endTime))) := sortAges_perm _
    have hkeysperm : List.Perm
        ((sortAges (store.traces.map (fun p => (p.1, p.2.endTime)))).map Prod.fst)
        ((store.traces.map (fun p => (p.1, p.2.endTime))).map Prod.fst) :=
      hperm.map Prod.fst
    have hageskeys : (store.traces.map (fun p => (p.1, p.2.endTime))).map Prod.fst =
        store.traces.map Prod.fst := by
      rw [List.map_map]
      rfl
    have hsortednodup :
        ((sortAges (store.traces.map (fun p => (p.1, p.2.endTime)))).map Prod.fst).Nodup :=
      (hkeysperm.nodup_iff).2 (by rw [hageskeys]; exact hkeys)
    have hnewnodup : new.Nodup := hsortednodup.sublist hpre.sublist
    have hnewsub : ∀ i ∈ new, containsKeyA store.traces i = true := by
      intro i hi
      have h1 : i ∈ (sortAges (store.traces.map (fun p => (p.1, p.2.endTime)))).map Prod.fst :=
        hpre.sublist.subset hi
      have h2 : i ∈ store.traces.map Prod.fst := by
        rw [← hageskeys]
        exact hkeysperm.mem_iff.1 h1
      exact (containsKeyA_iff_mem_keys _ _).2 h2
    have htr' : (cleanupOldTraces store now).traces =
        store.traces.filter (fun p => decide (¬ p.1 ∈ new)) := by
      rw [hclean, hids']
      exact foldl_removeTrace_traces new store
    have hsum : totalSpanCount (cleanupOldTraces store now).traces =
        totalSpanCount store.traces - (new.map (cntOf store.traces)).sum := by
      rw [htr', totalSpanCount_eq_sum,
        sum_filter_not_mem new store.traces hkeys hnewnodup hnewsub,
        ← totalSpanCount_eq_sum]
    constructor
    · rcases hend with hle | hall
      · rw [hsum]
        omega
      · have hempty : store.traces.filter (fun p => decide (¬ p.1 ∈ new)) = [] := by
          rw [List.filter_eq_nil]
          intro p hp
          have hin : p.1 ∈ new := by
            rw [hall]
            exact hkeysperm.mem_iff.2
              (by rw [hageskeys]; exact List.mem_map_of_mem Prod.fst hp)
          simp [hin]
        rw [htr', hempty]
        norm_num [totalSpanCount]
    · intro p hp hpc q hq
      rw [htr'] at hpc hq
      have hpred := containsKeyA_filter_nodup store.traces
        (fun p => decide (¬ p.1 ∈ new)) p hp hkeys
      rw [hpc] at hpred
      have hpnew : p.1 ∈ new := by
        have hd := hpred.symm
        simpa using hd
      have hq' := List.mem_filter.1 hq
      have hqnew : ¬ q.1 ∈ new := by simpa using hq'.2
      have hAkeys : ((sortAges (store.traces.map (fun p => (p.1, p.2.endTime)))).take
          new.length).map Prod.fst = new := by
        obtain ⟨tail, htail⟩ := hpre
        rw [List.map_take, ← htail, List.take_left]
      have hABnodup : (((sortAges (store.traces.map (fun p => (p.1, p.2.endTime)))).take
            new.length).map Prod.fst ++
          ((sortAges (store.traces.map (fun p => (p.1, p.2.endTime)))).drop
            new.length).map Prod.fst).Nodup := by
        rw [← List.map_append, List.take_append_drop]
        exact hsortednodup
      have hpPair : (p.1, p.2.endTime) ∈
          sortAges (store.traces.map (fun p => (p.1, p.2.endTime))) :=
        hperm.mem_iff.2 (List.mem_map_of_mem (fun p => (p.1, p.2.endTime)) hp)
      have hqPair : (q.1, q.2.endTime) ∈
          sortAges (store.traces.map (fun p => (p.1, p.2.endTime))) :=
        hperm.mem_iff.2 (List.mem_map_of_mem (fun p => (p.1, p.2.endTime)) hq'.1)
      obtain ⟨_, _, hdisj⟩ := List.nodup_append.1 hABnodup
      have hsplit := (List.take_append_drop new.length
        (sortAges (store.traces.map (fun p => (p.1, p.2.endTime))))).symm
      have hppA : (p.1, p.2.endTime) ∈
          (sortAges (store.traces.map (fun p => (p.1, p.2.endTime)))).take new.length := by
        rcases List.mem_append.1 (hsplit ▸ hpPair) with h | h
        · exact h
        · exfalso
          apply hdisj (a := p.1)
          · rw [hAkeys]
            exact hpnew
          · exact List.mem_map_of_mem Prod.fst h
      have hqqB : (q.1, q.2.endTime) ∈
          (sortAges (store.traces.map (fun p => (p.1, p.2.endTime)))).drop new.length := by
        rcases List.mem_append.1 (hsplit ▸ hqPair) with h | h
        · exfalso
          apply hqnew
          rw [← hAkeys]
          exact List.mem_map_of_mem Prod.fst h
        · exact h
      have hsorted := sortAges_sorted (store.traces.map (fun p => (p.1, p.2.endTime)))
      rw [← List.take_append_drop new.length
        (sortAges (store.traces.map (fun p => (p.1, p.2.endTime))))] at hsorted
      have hle : p.2.endTime ≤ q.2.endTime :=
        (List.pairwise_append.1 hsorted).2.2 _ hppA _ hqqB
      have hsym : Symmetric (fun p q : String × TraceData => p.2.endTime ≠ q.2.endTime) :=
        fun _ _ h => h.symm
      have hpq : p ≠ q := by
        intro he
        apply hqnew
        rw [← he]
        exact hpnew
      exact lt_of_le_of_ne hle (List.Pairwise.forall hsym hdist hp hq'.1 hpq)
  · intro hretpos hex
    have hg1 : ¬(store.maxSpans ≤ 0 ∧ store.retention ≤ 0) := by
      intro hc
      omega
    have hfil_ne : ((store.traces.filter
        (fun p => decide (now - p.2.endTime > store.retention))).map Prod.fst) ≠ [] := by
      obtain ⟨p, hp, hpe⟩ := hex
      have hmem : p ∈ store.traces.filter
          (fun p => decide (now - p.2.endTime > store.retention)) :=
        List.mem_filter.2 ⟨hp, decide_eq_true hpe⟩
      intro he
      rw [List.map_eq_nil] at he
      rw [he] at hmem
      cases hmem
    have hclean2 : cleanupOldTraces store now =
        ((store.traces.filter
          (fun p => decide (now - p.2.endTime > store.retention))).map Prod.fst).foldl
            removeTrace store := by
      simp only [cleanupOldTraces]
      rw [if_neg hg1, if_pos hretpos]
      rw [if_neg (fun hc => hfil_ne hc.2.2)]
    have htr2 : (cleanupOldTraces store now).traces =
        store.traces.filter (fun p => decide (¬ p.1 ∈
          ((store.traces.filter
            (fun p => decide (now - p.2.endTime > store.retention))).map Prod.fst))) := by
      rw [hclean2]
      exact foldl_removeTrace_traces _ _
    intro p hp
    rw [htr2, containsKeyA_filter_nodup store.traces _ p hp hkeys]
    constructor
    · intro hfalse
      have hpin : p.1 ∈ (store.traces.filter
          (fun p => decide (now - p.2.endTime > store.retention))).map Prod.fst := by
        simpa using hfalse
      obtain ⟨r, hr, hre⟩ := List.mem_map.1 hpin
      have hrt := List.mem_filter.1 hr
      have hr1 : ((p.1, r.2) : String × TraceData) ∈ store.traces := by
        rw [← hre, Prod.mk.eta]
        exact hrt.1
      have hp1 : ((p.1, p.2) : String × TraceData) ∈ store.traces := by
        rw [Prod.mk.eta]
        exact hp
      have hr2 : r.2 = p.2 := nodup_key_unique store.traces hkeys p.1 r.2 p.2 hr1 hp1
      have hdec := of_decide_eq_true hrt.2
      rw [hr2] at hdec
      exact hdec
    · intro hexp
      have hmemf : p ∈ store.traces.filter
          (fun p => decide (now - p.2.endTime > store.retention)) :=
        List.mem_filter.2 ⟨hp, decide_eq_true hexp⟩
      have hin := List.mem_map_of_mem Prod.fst hmemf
      simp [hin]

theorem c3_witness :
    totalSpanCount (cleanupOldTraces c3store 0).traces ≤ 10 ∧
    containsKeyA (cleanupOldTraces c3retStore 100).traces "00" = false := by
  refine ⟨((c3_size_pass c3store 0 (by decide)).1 (by decide) (by decide) (by decide)
    (by decide)).1, ?_⟩
  exact ((c3_size_pass c3retStore 100 (by decide)).2 (by decide)
    ⟨("00", TraceData.mk "00" none [("00", mkSpan [0] [0] "" 0 0 [])] [] 0 0 "" ""),
      by decide, by decide⟩
    ("00", TraceData.mk "00" none [("00", mkSpan [0] [0] "" 0 0 [])] [] 0 0 "" "")
    (by decide)).mpr (by decide)
